import Mathlib

/-!
Verification of the pyadbc design-by-contract engine (`pyadbc/pyadbc.py`).

The embedding is a shallow model of the module's data and operations:

* receiver state is an abstract type `σ` (Python mutates `self` in place; here
  every implementation is a state transformer `σ → ...`);
* snapshot ("old") values have an abstract type `ν`, and a Python dict of
  captured values is an association list `Snap ν` with last-write-wins update
  (`dictMerge` models `dict(oldvals.items() + vals.items())`; the hash order of
  Python dict keys is not modelled, conditions only ever look keys up);
* a condition's result is a `PyVal` (the module compares results against the
  Python boolean `True` with `!=`, under which the integer `1` equals `True`);
* object identity matters in the source (wrappers are mutated in place, the
  `_Condition` objects of one `invariant(...)` application are installed in
  several wrappers, `copy.deepcopy` makes fresh objects), so wrappers and
  conditions carry an allocation id drawn from a counter in `Store`;
* the one mutable list that is aliased *between* wrappers in the source is the
  `olds` list: `_PyADBCMethodCallWrapper.__init__` copies `pre_conditions` and
  `post_conditions` with `list(...)` but stores `olds` by reference, so every
  wrapper built without an explicit `olds` argument shares the single default
  list object `[]` of the `def __init__(self, method, pre_conditions=[],
  post_conditions = [], olds = [])` line.  `Store.oldsCells` is therefore a
  heap of olds lists; cell `0` is that shared default object, and a wrapper
  stores a reference `oldsRef` into the heap.
-/

namespace PyADBC

/-- Python values that a condition predicate may return.  The wrapper compares
the result with `!= True`; Python equality identifies `True` with the integer
`1`, which `pyNeTrue` reproduces. -/
inductive PyVal where
  | bool : Bool → PyVal
  | int : Int → PyVal
  | str : String → PyVal
  | pynone : PyVal
deriving DecidableEq

/-- The test `cond(...) != True` from `_PyADBCMethodCallWrapper.__call__`
(lines 192 and 200).  In Python `1 != True` is `False` because `True == 1`. -/
def pyNeTrue : PyVal → Bool
  | PyVal.bool b => !b
  | PyVal.int n => n != 1
  | PyVal.str _ => true
  | PyVal.pynone => true

/-- An old-state snapshot: a Python dict from names to captured values. -/
abbrev Snap (ν : Type) := List (String × ν)

/-- First-match association-list lookup (Python dict read). -/
def lookupN : List (String × α) → String → Option α
  | [], _ => Option.none
  | p :: rest, nm => if p.1 = nm then some p.2 else lookupN rest nm

/-- Insert one key/value pair into a dict, overwriting an existing binding. -/
def dictInsert (d : Snap ν) (kv : String × ν) : Snap ν :=
  match d with
  | [] => [kv]
  | p :: rest => if p.1 = kv.1 then kv :: rest else p :: dictInsert rest kv

/-- `dict(d.items() + vals.items())`: later pairs overwrite earlier keys. -/
def dictMerge (d : Snap ν) (vals : Snap ν) : Snap ν :=
  vals.foldl dictInsert d

/-- A condition predicate.  `_Condition.__call__` inspects the declared
parameter count of the wrapped function: a two-parameter predicate receives
`(calleeself, old)`, a one-parameter predicate receives `(calleeself)` only. -/
inductive Pred (σ ν : Type) where
  | unary : (σ → PyVal) → Pred σ ν
  | binary : (σ → Snap ν → PyVal) → Pred σ ν

/-- A `_Condition` object: the predicate, the `inv` tag set by `invariant`,
and an allocation id standing for Python object identity. -/
structure Condition (σ ν : Type) where
  id : Nat
  condition : Pred σ ν
  inv : Bool

/-- `_Condition.__call__(self, calleeself, old = {})`.  The caller supplies
`old`; the precondition loop calls `cond(calleeself)`, which makes this
argument the default empty dict `[]`. -/
def Condition.call (c : Condition σ ν) (calleeself : σ) (old : Snap ν) : PyVal :=
  match c.condition with
  | Pred.unary f => f calleeself
  | Pred.binary f => f calleeself old

/-- Apply a bare predicate with `_Condition.__call__`'s dispatch rule. -/
def evalPred (p : Pred σ ν) (s : σ) (old : Snap ν) : PyVal :=
  match p with
  | Pred.unary f => f s
  | Pred.binary f => f s old

/-- Predicate and tag of a condition, forgetting its object identity: what is
preserved by `copy.deepcopy` of a `_Condition`. -/
def stripId (c : Condition σ ν) : Pred σ ν × Bool := (c.condition, c.inv)

/-- An underlying implementation body.  It receives the receiver and the
current value of the wrapper's `oldvals` attribute, and returns the mutated
receiver, the (possibly rewritten) `oldvals` attribute — a nested invocation
through the same wrapper reassigns `self.oldvals` — and its return value.
Extra positional arguments of the Python method are absorbed into the
function. -/
abbrev Impl (σ ν ρ : Type) := σ → Snap ν → σ × Snap ν × ρ

/-- A `_PyADBCMethodCallWrapper`.  `wid` is its object identity, `oldsRef`
points into `Store.oldsCells` (the `self.olds` list is stored by reference,
not copied), and `oldvals` is the `self.oldvals` attribute. -/
structure Wrapper (σ ν ρ : Type) where
  wid : Nat
  method : Impl σ ν ρ
  preconds : List (Condition σ ν)
  postconds : List (Condition σ ν)
  oldsRef : Nat
  oldvals : Snap ν

/-- A method slot of a class: either a plain function or a `call_wrapper`
function carrying a `cw` attribute (`hasattr(method, 'cw')`). -/
inductive Meth (σ ν ρ : Type) where
  | plain : Impl σ ν ρ → Meth σ ν ρ
  | wrapped : Wrapper σ ν ρ → Meth σ ν ρ

/-- Allocation state: a counter for fresh object ids and the heap of `olds`
list objects.  Cell `0` is the module-level default list `olds = []` of
`_PyADBCMethodCallWrapper.__init__`, shared by every wrapper whose
constructor call does not pass `olds`. -/
structure Store (σ ν : Type) where
  next : Nat
  oldsCells : List (List (σ → Snap ν))

/-- The state at import time: nothing allocated, the default `olds` list is
empty. -/
def initStore : Store σ ν := ⟨0, [[]]⟩

/-- Read an `olds` list object off the heap. -/
def Store.oldsAt (st : Store σ ν) (r : Nat) : List (σ → Snap ν) :=
  st.oldsCells.getD r []

/-- Build the `_Condition` objects of one attachment call, ids counting up
from `n`. -/
def allocCondsL (n : Nat) (isInv : Bool) : List (Pred σ ν) → List (Condition σ ν)
  | [] => []
  | p :: rest => ⟨n, p, isInv⟩ :: allocCondsL (n + 1) isInv rest

/-- Build the `_Condition` objects of one attachment call
(`conditions.append(_Condition(cond, inv))`), each a fresh object. -/
def allocConds (st : Store σ ν) (ps : List (Pred σ ν)) (isInv : Bool) :
    List (Condition σ ν) × Store σ ν :=
  (allocCondsL st.next isInv ps, { st with next := st.next + ps.length })

/-- `_PyADBCMethodCallWrapper.__init__`: `pre_conditions` and
`post_conditions` are copied with `list(...)`; `olds` is stored by reference —
`Option.none` means the call did not pass `olds`, so the wrapper aliases the
shared default list object (cell `0`), exactly as the mutable default
argument does in Python. -/
def mkWrapper (st : Store σ ν) (f : Impl σ ν ρ) (pre post : List (Condition σ ν))
    (oldsArg : Option (List (σ → Snap ν))) : Wrapper σ ν ρ × Store σ ν :=
  match oldsArg with
  | Option.none =>
      (⟨st.next, f, pre, post, 0, []⟩, { st with next := st.next + 1 })
  | some fns =>
      (⟨st.next, f, pre, post, st.oldsCells.length, []⟩,
       ⟨st.next + 1, st.oldsCells ++ [fns]⟩)

/-- `requires(*preconditions)` applied to a method: extend the existing
wrapper's `preconds` in place, or create a wrapper with these preconditions. -/
def requiresAttach (st : Store σ ν) (preconditions : List (Pred σ ν)) (m : Meth σ ν ρ) :
    Meth σ ν ρ × Store σ ν :=
  let a := allocConds st preconditions false
  match m with
  | Meth.wrapped cw => (Meth.wrapped { cw with preconds := cw.preconds ++ a.1 }, a.2)
  | Meth.plain f =>
      let b := mkWrapper a.2 f a.1 [] Option.none
      (Meth.wrapped b.1, b.2)

/-- `ensures(*postconditions)` applied to a method. -/
def ensuresAttach (st : Store σ ν) (postconditions : List (Pred σ ν)) (m : Meth σ ν ρ) :
    Meth σ ν ρ × Store σ ν :=
  let a := allocConds st postconditions false
  match m with
  | Meth.wrapped cw => (Meth.wrapped { cw with postconds := cw.postconds ++ a.1 }, a.2)
  | Meth.plain f =>
      let b := mkWrapper a.2 f [] a.1 Option.none
      (Meth.wrapped b.1, b.2)

/-- `old(oldfun)` applied to a method: `method.cw.olds.append(oldfun)` mutates
the list object the wrapper references (which is the shared default object
when the wrapper was created by `requires`/`ensures`/`invariant`); on a bare
method a wrapper is created with a fresh one-element `olds` list. -/
def oldAttach (st : Store σ ν) (oldfun : σ → Snap ν) (m : Meth σ ν ρ) :
    Meth σ ν ρ × Store σ ν :=
  match m with
  | Meth.wrapped cw =>
      (Meth.wrapped cw,
       { st with oldsCells := st.oldsCells.set cw.oldsRef (st.oldsAt cw.oldsRef ++ [oldfun]) })
  | Meth.plain f =>
      let b := mkWrapper st f [] [] (some [oldfun])
      (Meth.wrapped b.1, b.2)

/-- A class, as the attachment layer sees it: the attributes set directly on
the class (`own`) and the members visible through its bases
(`parentMembers`, already resolved base-by-base as `inspect.getmembers` of the
bases would report them, one entry per name). -/
structure ClassT (σ ν ρ : Type) where
  own : List (String × Meth σ ν ρ)
  parentMembers : List (String × Meth σ ν ρ)

/-- Is a name bound in an attribute list? -/
def hasName (l : List (String × α)) (nm : String) : Bool :=
  match lookupN l nm with
  | some _ => true
  | Option.none => false

/-- `inspect.getmembers(klass)`: the members visible on the class — its own
attributes plus the inherited ones it does not shadow.  (`getmembers` sorts
names alphabetically; no verified property depends on the enumeration order,
so the stored order is kept.) -/
def members (k : ClassT σ ν ρ) : List (String × Meth σ ν ρ) :=
  k.own ++ k.parentMembers.filter (fun p => !(hasName k.own p.1))

/-- Lookup of a member as attribute resolution would find it. -/
def mlookup (k : ClassT σ ν ρ) (nm : String) : Option (Meth σ ν ρ) :=
  lookupN (members k) nm

/-- `setattr(klass, name, value)`: bind an attribute directly on the class. -/
def setattrOwn : List (String × α) → String → α → List (String × α)
  | [], nm, m => [(nm, m)]
  | p :: rest, nm, m => if p.1 = nm then (nm, m) :: rest else p :: setattrOwn rest nm m

/-- Install a member directly on the class. -/
def setattrC (k : ClassT σ ν ρ) (nm : String) (m : Meth σ ν ρ) : ClassT σ ν ρ :=
  { k with own := setattrOwn k.own nm m }

/-- Overwrite the binding of `nm`, wherever it is bound. -/
def replaceIn : List (String × α) → String → α → List (String × α)
  | [], _, _ => []
  | p :: rest, nm, m => (if p.1 = nm then (nm, m) else p) :: replaceIn rest nm m

/-- In-place mutation of a member's wrapper object (`mfunc.cw.preconds = ...`):
the updated wrapper is seen wherever the member is bound — on the class itself
if it is an own attribute, otherwise through the base that defined it. -/
def updateWhereFound (k : ClassT σ ν ρ) (nm : String) (m : Meth σ ν ρ) : ClassT σ ν ρ :=
  if hasName k.own nm then { k with own := replaceIn k.own nm m }
  else { k with parentMembers := replaceIn k.parentMembers nm m }

/-- `_invariant_wrap(klass, method, conditions)`: on a method that already
carries a wrapper, prepend the invariant conditions to its lists
(`list(conditions) + ...` copies the list but keeps the same `_Condition`
objects), skipping the precondition list for `__init__`; on a plain method,
install a fresh wrapper whose lists are these conditions (postconditions only
for `__init__`).  The wrapper construction passes no `olds`, so it aliases
the shared default `olds` list. -/
def invariantWrapStep (st : Store σ ν) (k : ClassT σ ν ρ) (nm : String)
    (m : Meth σ ν ρ) (conds : List (Condition σ ν)) : ClassT σ ν ρ × Store σ ν :=
  match m with
  | Meth.wrapped cw =>
      let cw' := if nm = "__init__" then { cw with postconds := conds ++ cw.postconds }
        else { cw with preconds := conds ++ cw.preconds, postconds := conds ++ cw.postconds }
      (updateWhereFound k nm (Meth.wrapped cw'), st)
  | Meth.plain f =>
      if nm = "__init__" then
        let b := mkWrapper st f [] conds Option.none
        (setattrC k nm (Meth.wrapped b.1), b.2)
      else
        let b := mkWrapper st f conds conds Option.none
        (setattrC k nm (Meth.wrapped b.1), b.2)

/-- The loop of `invariant.classwrapper` over the member list that was
enumerated before the loop started. -/
def invGo (conds : List (Condition σ ν)) :
    ClassT σ ν ρ × Store σ ν → List (String × Meth σ ν ρ) → ClassT σ ν ρ × Store σ ν
  | acc, [] => acc
  | acc, (nm, m) :: rest => invGo conds (invariantWrapStep acc.2 acc.1 nm m conds) rest

/-- `invariant(*iconditions)` applied to a class: build the `_Condition`
objects once (tagged `inv = True`), enumerate the visible methods once, then
wrap each enumerated method with that single condition list. -/
def invariantAttach (st : Store σ ν) (iconds : List (Pred σ ν)) (k : ClassT σ ν ρ) :
    ClassT σ ν ρ × Store σ ν :=
  let a := allocConds st iconds true
  invGo a.1 (k, a.2) (members k)

/-- First-match lookup in a `deepcopy` memo table (old id to new id). -/
def lookupNat : List (Nat × Nat) → Nat → Option Nat
  | [], _ => Option.none
  | p :: rest, n => if p.1 = n then some p.2 else lookupNat rest n

/-- Copy a `_Condition` list as `copy.deepcopy` does: every object is
replaced by a fresh one with the same predicate and tag, and the memo table
preserves sharing between occurrences of one object. -/
def copyConds (n : Nat) (memo : List (Nat × Nat)) :
    List (Condition σ ν) → List (Condition σ ν) × List (Nat × Nat) × Nat
  | [] => ([], memo, n)
  | c :: rest =>
      match lookupNat memo c.id with
      | some nid =>
          let r := copyConds n memo rest
          ({ c with id := nid } :: r.1, r.2)
      | Option.none =>
          let r := copyConds (n + 1) ((c.id, n) :: memo) rest
          ({ c with id := n } :: r.1, r.2)

/-- `copy.deepcopy(parent_method)` on a wrapper: fresh wrapper object, fresh
condition objects, and a fresh `olds` list object holding the same capture
functions (functions themselves are copied atomically by `deepcopy`). -/
def deepcopyWrapper (st : Store σ ν) (cw : Wrapper σ ν ρ) : Wrapper σ ν ρ × Store σ ν :=
  let pr := copyConds st.next [] cw.preconds
  let po := copyConds pr.2.2 pr.2.1 cw.postconds
  (⟨po.2.2, cw.method, pr.1, po.1, st.oldsCells.length, cw.oldvals⟩,
   ⟨po.2.2 + 1, st.oldsCells ++ [st.oldsAt cw.oldsRef]⟩)

/-- The ancestor methods that carry a wrapper (`hasattr(m, 'cw')`). -/
def parentWrapped (k : ClassT σ ν ρ) : List (String × Wrapper σ ν ρ) :=
  k.parentMembers.filterMap (fun p =>
    match p.2 with
    | Meth.wrapped cw => some (p.1, cw)
    | Meth.plain _ => Option.none)

/-- The loop body of `dbcinherit`: for each ancestor wrapper, look the name up
in the member dict that was built before the loop (`child_class_methods`); if
that member has no wrapper of its own, install a deep copy of the ancestor
wrapper with its `method` pointer rebound to the override body; otherwise do
nothing. -/
def dbcGo (cm : List (String × Meth σ ν ρ)) :
    ClassT σ ν ρ × Store σ ν → List (String × Wrapper σ ν ρ) → ClassT σ ν ρ × Store σ ν
  | acc, [] => acc
  | acc, (nm, pcw) :: rest =>
      match lookupN cm nm with
      | some (Meth.plain f) =>
          let r := deepcopyWrapper acc.2 pcw
          dbcGo cm (setattrC acc.1 nm (Meth.wrapped { r.1 with method := f }), r.2) rest
      | _ => dbcGo cm acc rest

/-- `dbcinherit(klass)`.  The source iterates `klass.__bases__` and builds a
dict of wrapped methods per base; `parentWrapped` is that resolved view, one
entry per name (the uniqueness `dict()` guarantees is a hypothesis of the
theorems below).  What is modelled of the installed slot is its `cw`
attribute (`call_wrapper.cw = cw`); the `call_wrapper` closures the loop
defines all capture the loop-local `cw` variable by reference, a detail with
no bearing on the installation behaviour the claims describe. -/
def dbcinherit (st : Store σ ν) (k : ClassT σ ν ρ) : ClassT σ ν ρ × Store σ ν :=
  dbcGo (members k) (k, st) (parentWrapped k)

/-- What an invocation raises or returns: the implementation's result, or one
of the three exception classes of the module. -/
inductive Outcome (ρ : Type) where
  | ok : ρ → Outcome ρ
  | preconditionFailedException : Outcome ρ
  | postconditionFailedException : Outcome ρ
  | invariantFailedException : Outcome ρ
deriving DecidableEq

/-- Observable events of one invocation: a condition evaluation (its id, the
`old` dict it was handed, its result) in either phase, and the run of the
underlying implementation. -/
inductive Ev (ν : Type) where
  | evalPre : Nat → Snap ν → PyVal → Ev ν
  | runImpl : Ev ν
  | evalPost : Nat → Snap ν → PyVal → Ev ν
deriving DecidableEq

/-- One phase of `__call__`: evaluate the conditions in list order against
`(calleeself, old)` and stop at the first whose result `!= True`, raising
`InvariantFailedException` if it is invariant-tagged and the phase's failure
otherwise; record an event per evaluated condition. -/
def checkConds (mk : Nat → Snap ν → PyVal → Ev ν) (phaseFail : Outcome ρ)
    (s : σ) (old : Snap ν) : List (Condition σ ν) → Option (Outcome ρ) × List (Ev ν)
  | [] => (Option.none, [])
  | c :: rest =>
      let res := c.call s old
      if pyNeTrue res then
        (some (if c.inv then Outcome.invariantFailedException else phaseFail),
         [mk c.id old res])
      else
        let r := checkConds mk phaseFail s old rest
        (r.1, mk c.id old res :: r.2)

/-- The `oldvals` dict of one invocation: every capture function of the
wrapper's `olds` list, applied to the receiver in registration order, merged
left to right. -/
def buildSnapshot (st : Store σ ν) (w : Wrapper σ ν ρ) (s : σ) : Snap ν :=
  (st.oldsAt w.oldsRef).foldl (fun d f => dictMerge d (f s)) []

/-- Result of one invocation through a wrapper: the outcome, the final
receiver state, the wrapper with its final `oldvals` attribute, and the event
trace. -/
structure CallResult (σ ν ρ : Type) where
  outcome : Outcome ρ
  state : σ
  wrapper : Wrapper σ ν ρ
  trace : List (Ev ν)

/-- `_PyADBCMethodCallWrapper.__call__`: build `oldvals` from the receiver,
assign `self.oldvals`, check the preconditions — each called as
`cond(calleeself)`, so the `old` argument is the default empty dict — then
run the implementation, then check the postconditions as
`cond(calleeself, oldvals)` with the local `oldvals` variable, and return the
implementation's result. -/
def callWrapper (st : Store σ ν) (w : Wrapper σ ν ρ) (calleeself : σ) : CallResult σ ν ρ :=
  let oldvals := buildSnapshot st w calleeself
  let w1 : Wrapper σ ν ρ := { w with oldvals := oldvals }
  let pre := checkConds Ev.evalPre Outcome.preconditionFailedException calleeself [] w.preconds
  match pre.1 with
  | some out => ⟨out, calleeself, w1, pre.2⟩
  | Option.none =>
      let r := w.method calleeself oldvals
      let w2 : Wrapper σ ν ρ := { w1 with oldvals := r.2.1 }
      let post := checkConds Ev.evalPost Outcome.postconditionFailedException r.1 oldvals w.postconds
      match post.1 with
      | some out => ⟨out, r.1, w2, pre.2 ++ Ev.runImpl :: post.2⟩
      | Option.none => ⟨Outcome.ok r.2.2, r.1, w2, pre.2 ++ Ev.runImpl :: post.2⟩

section CallProtocolLemmas

variable {σ ν ρ : Type}

lemma Condition.call_eval (c : Condition σ ν) (s : σ) (old : Snap ν) :
    c.call s old = evalPred c.condition s old := by
  rcases c with ⟨i, p, b⟩
  cases p <;> rfl

lemma checkConds_all_pass {mk : Nat → Snap ν → PyVal → Ev ν} {phaseFail : Outcome ρ}
    {s : σ} {old : Snap ν} {cs : List (Condition σ ν)}
    (h : ∀ c ∈ cs, pyNeTrue (c.call s old) = false) :
    checkConds mk phaseFail s old cs =
      (Option.none, cs.map (fun c => mk c.id old (c.call s old))) := by
  induction cs with
  | nil => rfl
  | cons c rest ih =>
      have hc := h c (by simp)
      simp [checkConds, hc, ih (fun c' hc' => h c' (by simp [hc']))]

lemma checkConds_append_fail {mk : Nat → Snap ν → PyVal → Ev ν} {phaseFail : Outcome ρ}
    {s : σ} {old : Snap ν} {cs₁ : List (Condition σ ν)} {c : Condition σ ν}
    {cs₂ : List (Condition σ ν)}
    (h1 : ∀ c' ∈ cs₁, pyNeTrue (c'.call s old) = false)
    (hc : pyNeTrue (c.call s old) = true) :
    checkConds mk phaseFail s old (cs₁ ++ c :: cs₂) =
      (some (if c.inv then Outcome.invariantFailedException else phaseFail),
       cs₁.map (fun c' => mk c'.id old (c'.call s old)) ++ [mk c.id old (c.call s old)]) := by
  induction cs₁ with
  | nil => simp [checkConds, hc]
  | cons a rest ih =>
      have ha := h1 a (by simp)
      simp [checkConds, ha, ih (fun c' hc' => h1 c' (by simp [hc']))]

lemma checkConds_mem_trace {mk : Nat → Snap ν → PyVal → Ev ν} {phaseFail : Outcome ρ}
    {s : σ} {old : Snap ν} {cs : List (Condition σ ν)} :
    ∀ ev ∈ (checkConds mk phaseFail s old cs).2,
      ∃ c ∈ cs, ev = mk c.id old (c.call s old) := by
  induction cs with
  | nil => simp [checkConds]
  | cons c rest ih =>
      intro ev hev
      by_cases hc : pyNeTrue (c.call s old) = true
      · simp [checkConds, hc] at hev
        exact ⟨c, by simp, hev⟩
      · simp [checkConds, hc] at hev
        rcases hev with hev | hev
        · exact ⟨c, by simp, hev⟩
        · rcases ih ev hev with ⟨c', hc', he⟩
          exact ⟨c', by simp [hc'], he⟩

lemma checkConds_fst_some {mk : Nat → Snap ν → PyVal → Ev ν} {phaseFail : Outcome ρ}
    {s : σ} {old : Snap ν} {cs : List (Condition σ ν)} {out : Outcome ρ}
    (h : (checkConds mk phaseFail s old cs).1 = some out) :
    out = phaseFail ∨ out = Outcome.invariantFailedException := by
  induction cs with
  | nil => simp [checkConds] at h
  | cons c rest ih =>
      by_cases hc : pyNeTrue (c.call s old) = true
      · simp [checkConds, hc] at h
        by_cases hi : c.inv
        · simp [hi] at h
          exact Or.inr h.symm
        · simp [hi] at h
          exact Or.inl h.symm
      · simp [checkConds, hc] at h
        exact ih h

lemma callWrapper_pre_fail {st : Store σ ν} {w : Wrapper σ ν ρ} {s : σ}
    {out : Outcome ρ} {evs : List (Ev ν)}
    (h : checkConds Ev.evalPre Outcome.preconditionFailedException s [] w.preconds
      = (some out, evs)) :
    callWrapper st w s = ⟨out, s, { w with oldvals := buildSnapshot st w s }, evs⟩ := by
  simp [callWrapper, h]

lemma callWrapper_post_fail {st : Store σ ν} {w : Wrapper σ ν ρ} {s : σ}
    {evs1 evs2 : List (Ev ν)} {out : Outcome ρ}
    (h1 : checkConds Ev.evalPre (Outcome.preconditionFailedException : Outcome ρ) s [] w.preconds
      = (Option.none, evs1))
    (h2 : checkConds Ev.evalPost Outcome.postconditionFailedException
        (w.method s (buildSnapshot st w s)).1 (buildSnapshot st w s) w.postconds
      = (some out, evs2)) :
    callWrapper st w s =
      ⟨out, (w.method s (buildSnapshot st w s)).1,
       { w with oldvals := (w.method s (buildSnapshot st w s)).2.1 },
       evs1 ++ Ev.runImpl :: evs2⟩ := by
  simp [callWrapper, h1, h2]

lemma callWrapper_all_ok {st : Store σ ν} {w : Wrapper σ ν ρ} {s : σ}
    {evs1 evs2 : List (Ev ν)}
    (h1 : checkConds Ev.evalPre (Outcome.preconditionFailedException : Outcome ρ) s [] w.preconds
      = (Option.none, evs1))
    (h2 : checkConds Ev.evalPost (Outcome.postconditionFailedException : Outcome ρ)
        (w.method s (buildSnapshot st w s)).1 (buildSnapshot st w s) w.postconds
      = (Option.none, evs2)) :
    callWrapper st w s =
      ⟨Outcome.ok (w.method s (buildSnapshot st w s)).2.2,
       (w.method s (buildSnapshot st w s)).1,
       { w with oldvals := (w.method s (buildSnapshot st w s)).2.1 },
       evs1 ++ Ev.runImpl :: evs2⟩ := by
  simp [callWrapper, h1, h2]

end CallProtocolLemmas

section CallProtocolTheorems

variable {σ ν ρ : Type}

/-- C1 (amended): in the precondition phase every condition is invoked as
`cond(calleeself)`, so the `old` argument it can see is the default empty
dict, not the snapshot built in the capture step; a two-parameter
precondition predicate therefore receives the empty mapping. -/
theorem c1_preconds_get_empty_old (st : Store σ ν) (w : Wrapper σ ν ρ) (s : σ) :
    ∀ i o v, Ev.evalPre i o v ∈ (callWrapper st w s).trace →
      o = [] ∧ ∃ c ∈ w.preconds, i = c.id ∧ v = c.call s [] := by
  intro i o v hmem
  rcases hpre : checkConds Ev.evalPre Outcome.preconditionFailedException s [] w.preconds
    with ⟨o1, evs1⟩
  have hin : Ev.evalPre i o v ∈ evs1 := by
    cases o1 with
    | some out =>
        rw [callWrapper_pre_fail hpre] at hmem
        exact hmem
    | none =>
        rcases hpost : checkConds Ev.evalPost Outcome.postconditionFailedException
          (w.method s (buildSnapshot st w s)).1 (buildSnapshot st w s) w.postconds
          with ⟨o2, evs2⟩
        have htr : (callWrapper st w s).trace = evs1 ++ Ev.runImpl :: evs2 := by
          cases o2 with
          | some out => rw [callWrapper_post_fail hpre hpost]
          | none => rw [callWrapper_all_ok hpre hpost]
        rw [htr] at hmem
        simp only [List.mem_append, List.mem_cons] at hmem
        rcases hmem with h | h | h
        · exact h
        · exact absurd h (by simp)
        · rcases checkConds_mem_trace _ (by rw [hpost]; exact h) with ⟨c, _, he⟩
          exact absurd he (by simp)
  rcases checkConds_mem_trace _ (by rw [hpre]; exact hin) with ⟨c, hc, he⟩
  rcases Ev.evalPre.inj he with ⟨hi, ho, hv⟩
  exact ⟨ho, c, hc, hi, hv⟩

/-- C2: one invocation builds the snapshot and evaluates all preconditions
strictly before the implementation runs, evaluates all postconditions
strictly after it, hands every postcondition the snapshot computed from the
pre-call receiver state (so a mutation performed by the implementation cannot
change it), and returns the implementation's result when every condition
passed. -/
theorem c2_call_protocol (st : Store σ ν) (w : Wrapper σ ν ρ) (s : σ) :
    (∃ pe po, ((callWrapper st w s).trace = pe ++ Ev.runImpl :: po ∨
        ((callWrapper st w s).trace = pe ∧ Ev.runImpl ∉ (callWrapper st w s).trace)) ∧
      (∀ ev ∈ pe, ∃ i o v, ev = Ev.evalPre i o v) ∧
      (∀ ev ∈ po, ∃ i o v, ev = Ev.evalPost i o v)) ∧
    (∀ i o v, Ev.evalPost i o v ∈ (callWrapper st w s).trace → o = buildSnapshot st w s) ∧
    (∀ v, (callWrapper st w s).outcome = Outcome.ok v →
      v = (w.method s (buildSnapshot st w s)).2.2 ∧
      (callWrapper st w s).state = (w.method s (buildSnapshot st w s)).1) ∧
    ((∀ c ∈ w.preconds, pyNeTrue (c.call s []) = false) →
      (∀ c ∈ w.postconds, pyNeTrue
        (c.call (w.method s (buildSnapshot st w s)).1 (buildSnapshot st w s)) = false) →
      (callWrapper st w s).outcome =
        Outcome.ok (w.method s (buildSnapshot st w s)).2.2) := by
  rcases hpre : checkConds Ev.evalPre Outcome.preconditionFailedException s [] w.preconds
    with ⟨o1, evs1⟩
  have hpreEv : ∀ ev ∈ evs1, ∃ i o v, ev = Ev.evalPre i o v := by
    intro ev hev
    rcases checkConds_mem_trace _ (by rw [hpre]; exact hev) with ⟨c, _, he⟩
    exact ⟨c.id, [], c.call s [], he⟩
  cases o1 with
  | some out =>
      rw [callWrapper_pre_fail hpre]
      refine ⟨⟨evs1, [], Or.inr ⟨rfl, ?_⟩, hpreEv, by simp⟩, ?_, ?_, ?_⟩
      · intro hr
        rcases hpreEv _ hr with ⟨i, o, v, he⟩
        exact absurd he (by simp)
      · intro i o v hmem
        rcases hpreEv _ hmem with ⟨i', o', v', he⟩
        exact absurd he (by simp)
      · intro v hout
        rcases checkConds_fst_some (by rw [hpre]) with h | h <;>
          · rw [h] at hout
            exact absurd hout (by simp)
      · intro hallpre hallpost
        rw [checkConds_all_pass hallpre] at hpre
        simp at hpre
  | none =>
      rcases hpost : checkConds Ev.evalPost Outcome.postconditionFailedException
        (w.method s (buildSnapshot st w s)).1 (buildSnapshot st w s) w.postconds
        with ⟨o2, evs2⟩
      have hpostEv : ∀ ev ∈ evs2, ∃ c ∈ w.postconds,
          ev = Ev.evalPost c.id (buildSnapshot st w s)
            (c.call (w.method s (buildSnapshot st w s)).1 (buildSnapshot st w s)) := by
        intro ev hev
        exact checkConds_mem_trace _ (by rw [hpost]; exact hev)
      have hmid : (∀ ev ∈ evs2, ∃ i o v, ev = Ev.evalPost i o v) := by
        intro ev hev
        rcases hpostEv ev hev with ⟨c, _, he⟩
        exact ⟨c.id, _, _, he⟩
      have hsnap : ∀ i o v, Ev.evalPost i o v ∈ evs1 ++ Ev.runImpl :: evs2 →
          o = buildSnapshot st w s := by
        intro i o v hmem
        simp only [List.mem_append, List.mem_cons] at hmem
        rcases hmem with h | h | h
        · rcases hpreEv _ h with ⟨i', o', v', he⟩
          exact absurd he (by simp)
        · exact absurd h (by simp)
        · rcases hpostEv _ h with ⟨c, _, he⟩
          rcases Ev.evalPost.inj he with ⟨_, ho, _⟩
          exact ho
      cases o2 with
      | some out =>
          rw [callWrapper_post_fail hpre hpost]
          refine ⟨⟨evs1, evs2, Or.inl rfl, hpreEv, hmid⟩, hsnap, ?_, ?_⟩
          · intro v hout
            rcases checkConds_fst_some (by rw [hpost]) with h | h <;>
              · simp only at hout
                rw [h] at hout
                exact absurd hout (by simp)
          · intro hallpre hallpost
            rw [checkConds_all_pass hallpost] at hpost
            simp at hpost
      | none =>
          rw [callWrapper_all_ok hpre hpost]
          refine ⟨⟨evs1, evs2, Or.inl rfl, hpreEv, hmid⟩, hsnap, ?_, ?_⟩
          · intro v hout
            simp at hout
            exact ⟨hout.symm, rfl⟩
          · intro hallpre hallpost
            rfl

/-- C6 (amended): in each phase conditions are evaluated in list order and
evaluation stops at the first condition whose result compares unequal to the
boolean true value under Python equality (`pyNeTrue`; the integer `1`
compares equal to true).  That condition raises `InvariantFailedException`
when it is invariant-tagged, else the phase's failure; no later condition of
the phase is evaluated, and on a precondition failure the implementation is
never invoked. -/
theorem c6_fail_fast (st : Store σ ν) (w : Wrapper σ ν ρ) (s : σ) :
    (∀ cs₁ c cs₂, w.preconds = cs₁ ++ c :: cs₂ →
      (∀ c' ∈ cs₁, pyNeTrue (c'.call s []) = false) →
      pyNeTrue (c.call s []) = true →
      (callWrapper st w s).outcome =
        (if c.inv then Outcome.invariantFailedException
         else Outcome.preconditionFailedException) ∧
      (callWrapper st w s).trace =
        cs₁.map (fun c' => Ev.evalPre c'.id [] (c'.call s [])) ++
          [Ev.evalPre c.id [] (c.call s [])] ∧
      Ev.runImpl ∉ (callWrapper st w s).trace) ∧
    (∀ ds₁ d ds₂, (∀ c' ∈ w.preconds, pyNeTrue (c'.call s []) = false) →
      w.postconds = ds₁ ++ d :: ds₂ →
      (∀ d' ∈ ds₁, pyNeTrue (d'.call (w.method s (buildSnapshot st w s)).1
        (buildSnapshot st w s)) = false) →
      pyNeTrue (d.call (w.method s (buildSnapshot st w s)).1 (buildSnapshot st w s)) = true →
      (callWrapper st w s).outcome =
        (if d.inv then Outcome.invariantFailedException
         else Outcome.postconditionFailedException) ∧
      (callWrapper st w s).trace =
        w.preconds.map (fun c' => Ev.evalPre c'.id [] (c'.call s [])) ++
          Ev.runImpl ::
            (ds₁.map (fun d' => Ev.evalPost d'.id (buildSnapshot st w s)
              (d'.call (w.method s (buildSnapshot st w s)).1 (buildSnapshot st w s))) ++
             [Ev.evalPost d.id (buildSnapshot st w s)
              (d.call (w.method s (buildSnapshot st w s)).1 (buildSnapshot st w s))])) := by
  constructor
  · intro cs₁ c cs₂ hw h1 hc
    have hpre : checkConds Ev.evalPre (Outcome.preconditionFailedException : Outcome ρ)
        s [] w.preconds =
        (some (if c.inv then Outcome.invariantFailedException
               else Outcome.preconditionFailedException),
         cs₁.map (fun c' => Ev.evalPre c'.id [] (c'.call s [])) ++
           [Ev.evalPre c.id [] (c.call s [])]) := by
      rw [hw]
      exact checkConds_append_fail h1 hc
    rw [callWrapper_pre_fail hpre]
    refine ⟨rfl, rfl, ?_⟩
    intro hr
    simp at hr
  · intro ds₁ d ds₂ hall hw h1 hd
    have hpre : checkConds Ev.evalPre (Outcome.preconditionFailedException : Outcome ρ)
        s [] w.preconds =
        (Option.none, w.preconds.map (fun c' => Ev.evalPre c'.id [] (c'.call s []))) :=
      checkConds_all_pass hall
    have hpost : checkConds Ev.evalPost (Outcome.postconditionFailedException : Outcome ρ)
        (w.method s (buildSnapshot st w s)).1 (buildSnapshot st w s) w.postconds =
        (some (if d.inv then Outcome.invariantFailedException
               else Outcome.postconditionFailedException),
         ds₁.map (fun d' => Ev.evalPost d'.id (buildSnapshot st w s)
           (d'.call (w.method s (buildSnapshot st w s)).1 (buildSnapshot st w s))) ++
           [Ev.evalPost d.id (buildSnapshot st w s)
            (d.call (w.method s (buildSnapshot st w s)).1 (buildSnapshot st w s))]) := by
      rw [hw]
      exact checkConds_append_fail h1 hd
    rw [callWrapper_post_fail hpre hpost]
    exact ⟨rfl, rfl⟩

/-- A wrapper whose implementation behaves like `w.method` on the receiver
and on its return value but writes `g` to the wrapper's `oldvals` attribute
instead: the abstraction of an implementation that reassigns `self.oldvals`
while running (as a nested invocation through the same wrapper does). -/
def fieldRewrite (g : σ → Snap ν → Snap ν) (w : Wrapper σ ν ρ) : Wrapper σ ν ρ :=
  { w with method := fun a fld => ((w.method a fld).1, g a fld, (w.method a fld).2.2) }

/-- C10: the snapshot handed to the postconditions is the local `oldvals`
variable of the invocation, not the wrapper's `oldvals` attribute, so
rewriting that attribute while the implementation runs (as a nested
invocation through the same wrapper does) changes neither the outcome, nor
the final receiver state, nor any event of the trace — in particular not the
`old` dict the postconditions receive. -/
theorem c10_field_write_noninterference (st : Store σ ν) (w : Wrapper σ ν ρ)
    (g : σ → Snap ν → Snap ν) (s : σ) :
    (callWrapper st (fieldRewrite g w) s).outcome = (callWrapper st w s).outcome ∧
    (callWrapper st (fieldRewrite g w) s).trace = (callWrapper st w s).trace ∧
    (callWrapper st (fieldRewrite g w) s).state = (callWrapper st w s).state := by
  rcases hpre : checkConds Ev.evalPre (Outcome.preconditionFailedException : Outcome ρ)
    s [] w.preconds with ⟨o1, evs1⟩
  have hpre2 : checkConds Ev.evalPre (Outcome.preconditionFailedException : Outcome ρ)
      s [] (fieldRewrite g w).preconds = (o1, evs1) := hpre
  cases o1 with
  | some out =>
      rw [callWrapper_pre_fail hpre, callWrapper_pre_fail hpre2]
      exact ⟨rfl, rfl, rfl⟩
  | none =>
      rcases hpost : checkConds Ev.evalPost (Outcome.postconditionFailedException : Outcome ρ)
        (w.method s (buildSnapshot st w s)).1 (buildSnapshot st w s) w.postconds
        with ⟨o2, evs2⟩
      have hpost2 : checkConds Ev.evalPost (Outcome.postconditionFailedException : Outcome ρ)
          ((fieldRewrite g w).method s (buildSnapshot st (fieldRewrite g w) s)).1
          (buildSnapshot st (fieldRewrite g w) s) (fieldRewrite g w).postconds
          = (o2, evs2) := hpost
      cases o2 with
      | some out =>
          rw [callWrapper_post_fail hpre, callWrapper_post_fail hpre2 hpost2]
          · exact ⟨rfl, rfl, rfl⟩
          · exact hpost
      | none =>
          rw [callWrapper_all_ok hpre, callWrapper_all_ok hpre2 hpost2]
          · exact ⟨rfl, rfl, rfl⟩
          · exact hpost

lemma allocCondsL_mem {n : Nat} {b : Bool} {ps : List (Pred σ ν)} :
    ∀ c ∈ allocCondsL n b ps, ∃ p ∈ ps, c.condition = p ∧ c.inv = b := by
  induction ps generalizing n with
  | nil => simp [allocCondsL]
  | cons p rest ih =>
      intro c hc
      simp [allocCondsL] at hc
      rcases hc with hc | hc
      · exact ⟨p, by simp, by simp [hc]⟩
      · rcases ih c hc with ⟨p', hp', he⟩
        exact ⟨p', by simp [hp'], he⟩

/-- The chronological sequence of four attachment calls on one fresh method:
first `requires(*pA)`, then `requires(*pB)`, then `ensures(*pC)`, then
`ensures(*pD)` (in a decorator stack this is the bottom-to-top application
order). -/
def attachChain (pA pB pC pD : List (Pred σ ν)) (f : Impl σ ν ρ) :
    Meth σ ν ρ × Store σ ν :=
  let r1 := requiresAttach (initStore : Store σ ν) pA (Meth.plain f)
  let r2 := requiresAttach r1.2 pB r1.1
  let r3 := ensuresAttach r2.2 pC r2.1
  ensuresAttach r3.2 pD r3.1

/-- C3 (amended): stacked attachments compose into one ordered list per
phase, ordered chronologically — the attachment call that happens first
contributes the conditions that are evaluated FIRST in its phase.  Relative
to the implementation call this means the first attachment's postconditions
are evaluated closest to it, but the first attachment's preconditions are
evaluated furthest from it: the trace below runs `pA`'s conditions, then
`pB`'s, then the implementation, then `pC`'s, then `pD`'s. -/
theorem c3_attachment_order (pA pB pC pD : List (Pred σ ν)) (f : Impl σ ν ρ) (s : σ)
    (h1 : ∀ p ∈ pA ++ pB, pyNeTrue (evalPred p s []) = false)
    (h2 : ∀ p ∈ pC ++ pD, pyNeTrue (evalPred p (f s []).1 []) = false) :
    ∃ cw : Wrapper σ ν ρ, (attachChain pA pB pC pD f).1 = Meth.wrapped cw ∧
      cw.preconds =
        allocCondsL 0 false pA ++ allocCondsL (pA.length + 1) false pB ∧
      cw.postconds =
        allocCondsL (pA.length + 1 + pB.length) false pC ++
          allocCondsL (pA.length + 1 + pB.length + pC.length) false pD ∧
      (callWrapper (attachChain pA pB pC pD f).2 cw s).trace =
        ((allocCondsL 0 false pA).map (fun c => Ev.evalPre c.id [] (c.call s [])) ++
         (allocCondsL (pA.length + 1) false pB).map
           (fun c => Ev.evalPre c.id [] (c.call s []))) ++
        Ev.runImpl ::
          ((allocCondsL (pA.length + 1 + pB.length) false pC).map
            (fun c => Ev.evalPost c.id [] (c.call (f s []).1 [])) ++
           (allocCondsL (pA.length + 1 + pB.length + pC.length) false pD).map
            (fun c => Ev.evalPost c.id [] (c.call (f s []).1 []))) := by
  have hch : attachChain pA pB pC pD f =
      (Meth.wrapped ⟨pA.length, f,
        allocCondsL 0 false pA ++ allocCondsL (pA.length + 1) false pB,
        allocCondsL (pA.length + 1 + pB.length) false pC ++
          allocCondsL (pA.length + 1 + pB.length + pC.length) false pD, 0, []⟩,
       ⟨pA.length + 1 + pB.length + pC.length + pD.length, [[]]⟩) := by
    simp [attachChain, requiresAttach, ensuresAttach, allocConds, mkWrapper, initStore]
  refine ⟨⟨pA.length, f,
    allocCondsL 0 false pA ++ allocCondsL (pA.length + 1) false pB,
    allocCondsL (pA.length + 1 + pB.length) false pC ++
      allocCondsL (pA.length + 1 + pB.length + pC.length) false pD, 0, []⟩,
    by rw [hch], rfl, rfl, ?_⟩
  rw [hch]
  set w : Wrapper σ ν ρ := ⟨pA.length, f,
    allocCondsL 0 false pA ++ allocCondsL (pA.length + 1) false pB,
    allocCondsL (pA.length + 1 + pB.length) false pC ++
      allocCondsL (pA.length + 1 + pB.length + pC.length) false pD, 0, []⟩ with hw
  set stF : Store σ ν :=
    ⟨pA.length + 1 + pB.length + pC.length + pD.length, [[]]⟩ with hstF
  have hsnap : buildSnapshot stF w s = [] := by
    simp [buildSnapshot, Store.oldsAt, hstF]
  have hprecall : ∀ c ∈ w.preconds, pyNeTrue (c.call s []) = false := by
    intro c hc
    rw [hw] at hc
    simp only [List.mem_append] at hc
    rcases hc with hc | hc <;>
      · rcases allocCondsL_mem c hc with ⟨p, hp, hcond, _⟩
        rw [Condition.call_eval, hcond]
        exact h1 p (by simp [hp])
  have hpostcall : ∀ c ∈ w.postconds, pyNeTrue (c.call (f s []).1 []) = false := by
    intro c hc
    rw [hw] at hc
    simp only [List.mem_append] at hc
    rcases hc with hc | hc <;>
      · rcases allocCondsL_mem c hc with ⟨p, hp, hcond, _⟩
        rw [Condition.call_eval, hcond]
        exact h2 p (by simp [hp])
  have hpreEq : checkConds Ev.evalPre (Outcome.preconditionFailedException : Outcome ρ)
      s [] w.preconds =
      (Option.none, w.preconds.map (fun c => Ev.evalPre c.id [] (c.call s []))) :=
    checkConds_all_pass hprecall
  have hpostEq : checkConds Ev.evalPost (Outcome.postconditionFailedException : Outcome ρ)
      (w.method s (buildSnapshot stF w s)).1 (buildSnapshot stF w s) w.postconds =
      (Option.none,
       w.postconds.map (fun c => Ev.evalPost c.id [] (c.call (f s []).1 []))) := by
    rw [hsnap]
    exact checkConds_all_pass hpostcall
  rw [callWrapper_all_ok hpreEq hpostEq]
  simp [hw]

end CallProtocolTheorems

section ClassLemmas

variable {σ ν ρ : Type} {α : Type}

lemma lookupN_append {l₁ l₂ : List (String × α)} {nm : String} :
    lookupN (l₁ ++ l₂) nm =
      match lookupN l₁ nm with
      | some m => some m
      | Option.none => lookupN l₂ nm := by
  induction l₁ with
  | nil => simp [lookupN]
  | cons p rest ih => by_cases h : p.1 = nm <;> simp [lookupN, h, ih]

lemma lookupN_of_mem_nodup {l : List (String × α)} {nm : String} {m : α}
    (hnd : (l.map Prod.fst).Nodup) (hmem : (nm, m) ∈ l) : lookupN l nm = some m := by
  induction l with
  | nil => simp at hmem
  | cons p rest ih =>
      simp only [List.map_cons, List.nodup_cons] at hnd
      rcases List.mem_cons.1 hmem with h | h
      · rw [← h]
        simp [lookupN]
      · have hne : p.1 ≠ nm := by
          intro he
          exact hnd.1 (he ▸ (List.mem_map.2 ⟨(nm, m), h, rfl⟩))
        simp [lookupN, hne, ih hnd.2 h]

lemma hasName_false_lookupN {l : List (String × α)} {nm : String}
    (h : hasName l nm = false) : lookupN l nm = Option.none := by
  unfold hasName at h
  cases hl : lookupN l nm with
  | some m => rw [hl] at h; simp at h
  | none => rfl

lemma lookupN_setattr_self {l : List (String × α)} {nm : String} {m : α} :
    lookupN (setattrOwn l nm m) nm = some m := by
  induction l with
  | nil => simp [setattrOwn, lookupN]
  | cons p rest ih => by_cases h : p.1 = nm <;> simp [setattrOwn, lookupN, h, ih]

lemma lookupN_setattr_ne {l : List (String × α)} {nm nm' : String} {m : α}
    (h : nm' ≠ nm) : lookupN (setattrOwn l nm' m) nm = lookupN l nm := by
  induction l with
  | nil => simp [setattrOwn, lookupN, h]
  | cons p rest ih =>
      by_cases hp : p.1 = nm'
      · have hpn : ¬ p.1 = nm := by rw [hp]; exact h
        simp [setattrOwn, lookupN, hp, h, hpn]
      · simp [setattrOwn, lookupN, hp, ih]

lemma lookupN_replace_self {l : List (String × α)} {nm : String} {m m0 : α}
    (h : lookupN l nm = some m0) : lookupN (replaceIn l nm m) nm = some m := by
  induction l with
  | nil => simp [lookupN] at h
  | cons p rest ih =>
      by_cases hp : p.1 = nm
      · simp [replaceIn, lookupN, hp]
      · simp only [lookupN, hp, if_false, if_neg hp] at h
        simp [replaceIn, lookupN, hp, ih h]

lemma lookupN_replace_ne {l : List (String × α)} {nm nm' : String} {m : α}
    (h : nm' ≠ nm) : lookupN (replaceIn l nm' m) nm = lookupN l nm := by
  induction l with
  | nil => simp [replaceIn, lookupN]
  | cons p rest ih =>
      by_cases hp : p.1 = nm'
      · have hpn : ¬ p.1 = nm := by rw [hp]; exact h
        simp [replaceIn, lookupN, hp, h, hpn, ih]
      · simp [replaceIn, lookupN, hp, ih]

lemma lookupN_filter_keep {l : List (String × α)} {P : String × α → Bool} {nm : String}
    (h : ∀ p ∈ l, p.1 = nm → P p = true) :
    lookupN (l.filter P) nm = lookupN l nm := by
  induction l with
  | nil => simp [lookupN]
  | cons p rest ih =>
      by_cases hp : p.1 = nm
      · rw [List.filter_cons_of_pos (h p (by simp) hp)]
        simp [lookupN, hp]
      · cases hP : P p
        · rw [List.filter_cons_of_neg (by simp [hP])]
          simp [lookupN, hp, ih (fun q hq => h q (by simp [hq]))]
        · rw [List.filter_cons_of_pos hP]
          simp [lookupN, hp, ih (fun q hq => h q (by simp [hq]))]

lemma mlookup_eq {k : ClassT σ ν ρ} {nm : String} :
    mlookup k nm =
      match lookupN k.own nm with
      | some m => some m
      | Option.none => lookupN k.parentMembers nm := by
  unfold mlookup members
  rw [lookupN_append]
  cases h : lookupN k.own nm with
  | some m => rfl
  | none =>
      rw [lookupN_filter_keep]
      intro p hp hpnm
      have : hasName k.own p.1 = false := by
        unfold hasName
        rw [hpnm, h]
      simp [this]

end ClassLemmas

section StoreLemmas

variable {σ ν ρ : Type}

/-- One store extends another: the id counter only grows and existing `olds`
list cells keep their positions. -/
def StoreExt (st st' : Store σ ν) : Prop :=
  st.next ≤ st'.next ∧ ∃ t, st'.oldsCells = st.oldsCells ++ t

lemma storeExt_refl (st : Store σ ν) : StoreExt st st :=
  ⟨le_refl _, [], by simp⟩

lemma storeExt_trans {s1 s2 s3 : Store σ ν}
    (h1 : StoreExt s1 s2) (h2 : StoreExt s2 s3) : StoreExt s1 s3 := by
  rcases h1 with ⟨hn1, t1, ht1⟩
  rcases h2 with ⟨hn2, t2, ht2⟩
  exact ⟨le_trans hn1 hn2, t1 ++ t2, by rw [ht2, ht1, List.append_assoc]⟩

lemma storeExt_cells_le {st st' : Store σ ν} (h : StoreExt st st') :
    st.oldsCells.length ≤ st'.oldsCells.length := by
  rcases h with ⟨_, t, ht⟩
  simp [ht]

lemma storeExt_oldsAt {st st' : Store σ ν} (h : StoreExt st st') {r : Nat}
    (hr : r < st.oldsCells.length) : st'.oldsAt r = st.oldsAt r := by
  rcases h with ⟨_, t, ht⟩
  unfold Store.oldsAt
  rw [ht, List.getD_append _ _ _ _ hr]

lemma oldsAt_concat_self {st : Store σ ν} {x : List (σ → Snap ν)} :
    (Store.oldsAt ⟨st.next, st.oldsCells ++ [x]⟩ st.oldsCells.length : List (σ → Snap ν)) = x := by
  unfold Store.oldsAt
  simp

lemma lookupNat_mem : ∀ {memo : List (Nat × Nat)} {i j : Nat},
    lookupNat memo i = some j → (i, j) ∈ memo := by
  intro memo
  induction memo with
  | nil => intro i j h; simp [lookupNat] at h
  | cons p rest ih =>
      intro i j h
      rcases p with ⟨a, b⟩
      by_cases hp : a = i
      · subst hp
        have hb : b = j := by simpa [lookupNat] using h
        subst hb
        exact List.mem_cons_self _ _
      · exact List.mem_cons_of_mem _ (ih (by simpa [lookupNat, hp] using h))

lemma copyConds_strip {cs : List (Condition σ ν)} :
    ∀ {n : Nat} {memo : List (Nat × Nat)},
      (copyConds n memo cs).1.map stripId = cs.map stripId := by
  induction cs with
  | nil => intro n memo; simp [copyConds]
  | cons c rest ih =>
      intro n memo
      cases h : lookupNat memo c.id <;> simp [copyConds, h, stripId, ih]

lemma copyConds_ids_ge (base : Nat) (cs : List (Condition σ ν)) :
    ∀ (n : Nat) (memo : List (Nat × Nat)),
      (∀ pr ∈ memo, base ≤ pr.2) → base ≤ n →
      (∀ c' ∈ (copyConds n memo cs).1, base ≤ c'.id) ∧
      (∀ pr ∈ (copyConds n memo cs).2.1, base ≤ pr.2) ∧
      base ≤ (copyConds n memo cs).2.2 := by
  induction cs with
  | nil =>
      intro n memo hm hn
      exact ⟨by simp [copyConds], fun pr hpr => hm pr (by simpa [copyConds] using hpr),
        by simpa [copyConds] using hn⟩
  | cons c rest ih =>
      intro n memo hm hn
      cases h : lookupNat memo c.id with
      | some nid =>
          have hnid : base ≤ nid := hm _ (lookupNat_mem h)
          rcases ih n memo hm hn with ⟨h1, h2, h3⟩
          refine ⟨?_, ?_, ?_⟩
          · intro c' hc'
            simp only [copyConds, h] at hc'
            rcases List.mem_cons.1 hc' with he | he
            · rw [he]; exact hnid
            · exact h1 c' he
          · intro pr hpr
            simp only [copyConds, h] at hpr
            exact h2 pr hpr
          · simpa [copyConds, h] using h3
      | none =>
          have hm' : ∀ pr ∈ ((c.id, n) :: memo), base ≤ pr.2 := by
            intro pr hpr
            rcases List.mem_cons.1 hpr with he | he
            · rw [he]; exact hn
            · exact hm pr he
          rcases ih (n + 1) ((c.id, n) :: memo) hm' (le_trans hn (Nat.le_succ n)) with ⟨h1, h2, h3⟩
          refine ⟨?_, ?_, ?_⟩
          · intro c' hc'
            simp only [copyConds, h] at hc'
            rcases List.mem_cons.1 hc' with he | he
            · rw [he]; exact hn
            · exact h1 c' he
          · intro pr hpr
            simp only [copyConds, h] at hpr
            exact h2 pr hpr
          · simpa [copyConds, h] using h3

lemma copyConds_next_ge {cs : List (Condition σ ν)} : ∀ (n : Nat) (memo : List (Nat × Nat)),
    n ≤ (copyConds n memo cs).2.2 := by
  induction cs with
  | nil => intro n memo; simp [copyConds]
  | cons c rest ih =>
      intro n memo
      cases h : lookupNat memo c.id with
      | some nid => simpa [copyConds, h] using ih n memo
      | none =>
          simp only [copyConds, h]
          exact le_trans (Nat.le_succ n) (ih (n + 1) ((c.id, n) :: memo))

lemma deepcopyWrapper_spec (st : Store σ ν) (cw : Wrapper σ ν ρ) :
    (deepcopyWrapper st cw).1.method = cw.method ∧
    (deepcopyWrapper st cw).1.preconds.map stripId = cw.preconds.map stripId ∧
    (deepcopyWrapper st cw).1.postconds.map stripId = cw.postconds.map stripId ∧
    (∀ c ∈ (deepcopyWrapper st cw).1.preconds, st.next ≤ c.id) ∧
    (∀ c ∈ (deepcopyWrapper st cw).1.postconds, st.next ≤ c.id) ∧
    (deepcopyWrapper st cw).1.oldsRef = st.oldsCells.length ∧
    (deepcopyWrapper st cw).2.oldsAt (deepcopyWrapper st cw).1.oldsRef
      = st.oldsAt cw.oldsRef ∧
    StoreExt st (deepcopyWrapper st cw).2 := by
  have hpre := copyConds_ids_ge st.next cw.preconds st.next []
    (by simp) (le_refl _)
  have hpost := copyConds_ids_ge st.next cw.postconds
    (copyConds st.next [] cw.preconds).2.2 (copyConds st.next [] cw.preconds).2.1
    hpre.2.1 (copyConds_next_ge st.next [])
  refine ⟨rfl, copyConds_strip, copyConds_strip, ?_, ?_, rfl, ?_, ?_, ?_⟩
  · exact hpre.1
  · exact hpost.1
  · exact oldsAt_concat_self
  · exact le_trans (le_trans (copyConds_next_ge st.next [])
      (copyConds_next_ge (copyConds st.next [] cw.preconds).2.2
        (copyConds st.next [] cw.preconds).2.1)) (Nat.le_succ _)
  · exact ⟨[st.oldsAt cw.oldsRef], rfl⟩

end StoreLemmas

section DbcInheritLemmas

variable {σ ν ρ : Type}

lemma dbcGo_storeExt (cm : List (String × Meth σ ν ρ)) :
    ∀ (L : List (String × Wrapper σ ν ρ)) (k : ClassT σ ν ρ) (st : Store σ ν),
      StoreExt st (dbcGo cm (k, st) L).2 := by
  intro L
  induction L with
  | nil => intro k st; exact storeExt_refl st
  | cons e rest ih =>
      intro k st
      rcases e with ⟨nm, pcw⟩
      cases hcm : lookupN cm nm with
      | some m =>
          cases m with
          | plain f =>
              simp only [dbcGo, hcm]
              exact storeExt_trans (deepcopyWrapper_spec st pcw).2.2.2.2.2.2.2 (ih _ _)
          | wrapped cw =>
              simp only [dbcGo, hcm]
              exact ih k st
      | none =>
          simp only [dbcGo, hcm]
          exact ih k st

lemma dbcGo_own_preserve (cm : List (String × Meth σ ν ρ)) :
    ∀ (L : List (String × Wrapper σ ν ρ)) (nm : String), nm ∉ L.map Prod.fst →
      ∀ (k : ClassT σ ν ρ) (st : Store σ ν),
        lookupN (dbcGo cm (k, st) L).1.own nm = lookupN k.own nm := by
  intro L
  induction L with
  | nil => intro nm _ k st; rfl
  | cons e rest ih =>
      intro nm hnm k st
      rcases e with ⟨nm₂, pcw⟩
      simp only [List.map_cons, List.mem_cons, not_or] at hnm
      cases hcm : lookupN cm nm₂ with
      | some m =>
          cases m with
          | plain f =>
              simp only [dbcGo, hcm]
              rw [ih nm hnm.2 _ _]
              exact lookupN_setattr_ne (fun he => hnm.1 he.symm)
          | wrapped cw =>
              simp only [dbcGo, hcm]
              exact ih nm hnm.2 k st
      | none =>
          simp only [dbcGo, hcm]
          exact ih nm hnm.2 k st

lemma dbcGo_skip (cm : List (String × Meth σ ν ρ)) {nm : String}
    (hno : ∀ f, lookupN cm nm ≠ some (Meth.plain f)) :
    ∀ (L : List (String × Wrapper σ ν ρ)) (k : ClassT σ ν ρ) (st : Store σ ν),
      lookupN (dbcGo cm (k, st) L).1.own nm = lookupN k.own nm := by
  intro L
  induction L with
  | nil => intro k st; rfl
  | cons e rest ih =>
      intro k st
      rcases e with ⟨nm₂, pcw⟩
      cases hcm : lookupN cm nm₂ with
      | some m =>
          cases m with
          | plain f =>
              have hne : nm₂ ≠ nm := by
                intro he
                exact hno f (he ▸ hcm)
              simp only [dbcGo, hcm]
              rw [ih _ _]
              exact lookupN_setattr_ne hne
          | wrapped cw =>
              simp only [dbcGo, hcm]
              exact ih k st
      | none =>
          simp only [dbcGo, hcm]
          exact ih k st

lemma dbcGo_install (cm : List (String × Meth σ ν ρ)) {nm : String}
    {f : Impl σ ν ρ} (hcm : lookupN cm nm = some (Meth.plain f)) :
    ∀ (L : List (String × Wrapper σ ν ρ)) {pcw : Wrapper σ ν ρ},
      (L.map Prod.fst).Nodup → (nm, pcw) ∈ L →
      ∀ (k : ClassT σ ν ρ) (st : Store σ ν), pcw.oldsRef < st.oldsCells.length →
        ∃ cw', lookupN (dbcGo cm (k, st) L).1.own nm = some (Meth.wrapped cw') ∧
          cw'.method = f ∧
          cw'.preconds.map stripId = pcw.preconds.map stripId ∧
          cw'.postconds.map stripId = pcw.postconds.map stripId ∧
          (∀ c ∈ cw'.preconds, st.next ≤ c.id) ∧
          (∀ c ∈ cw'.postconds, st.next ≤ c.id) ∧
          st.oldsCells.length ≤ cw'.oldsRef ∧
          (dbcGo cm (k, st) L).2.oldsAt cw'.oldsRef = st.oldsAt pcw.oldsRef := by
  intro L
  induction L with
  | nil => intro pcw _ hmem; simp at hmem
  | cons e rest ih =>
      intro pcw hnd hmem k st href
      rcases e with ⟨nm₂, pcw₂⟩
      simp only [List.map_cons, List.nodup_cons] at hnd
      rcases List.mem_cons.1 hmem with he | hmem'
      · obtain ⟨he1, he2⟩ := Prod.ext_iff.1 he
        simp only at he1 he2
        subst he1
        subst he2
        simp only [dbcGo, hcm]
        have hspec := deepcopyWrapper_spec st pcw
        refine ⟨{ (deepcopyWrapper st pcw).1 with method := f }, ?_, rfl, ?_, ?_, ?_, ?_, ?_, ?_⟩
        · rw [dbcGo_own_preserve cm rest nm hnd.1 _ _]
          unfold setattrC
          exact lookupN_setattr_self
        · exact hspec.2.1
        · exact hspec.2.2.1
        · exact hspec.2.2.2.1
        · exact hspec.2.2.2.2.1
        · rw [hspec.2.2.2.2.2.1]
        · have hlt : (deepcopyWrapper st pcw).1.oldsRef
              < (deepcopyWrapper st pcw).2.oldsCells.length := by
            rw [hspec.2.2.2.2.2.1]
            show st.oldsCells.length < (st.oldsCells ++ [st.oldsAt pcw.oldsRef]).length
            simp
          rw [storeExt_oldsAt (dbcGo_storeExt cm rest _ _) hlt]
          exact hspec.2.2.2.2.2.2.1
      · have hnmne : nm₂ ≠ nm := by
          intro he
          exact hnd.1 (he ▸ (List.mem_map.2 ⟨(nm, pcw), hmem', rfl⟩))
        cases hcm2 : lookupN cm nm₂ with
        | some m =>
            cases m with
            | plain f₂ =>
                simp only [dbcGo, hcm2]
                have hext := (deepcopyWrapper_spec st pcw₂).2.2.2.2.2.2.2
                have href' : pcw.oldsRef < (deepcopyWrapper st pcw₂).2.oldsCells.length :=
                  lt_of_lt_of_le href (storeExt_cells_le hext)
                rcases ih hnd.2 hmem' (setattrC k nm₂
                    (Meth.wrapped { (deepcopyWrapper st pcw₂).1 with method := f₂ }))
                    (deepcopyWrapper st pcw₂).2 href' with
                  ⟨cw', hlk, hm, hs1, hs2, hi1, hi2, hor, hoa⟩
                refine ⟨cw', hlk, hm, hs1, hs2, ?_, ?_, ?_, ?_⟩
                · intro c hc
                  exact le_trans hext.1 (hi1 c hc)
                · intro c hc
                  exact le_trans hext.1 (hi2 c hc)
                · exact le_trans (storeExt_cells_le hext) hor
                · rw [hoa]
                  exact storeExt_oldsAt hext href
            | wrapped cw =>
                simp only [dbcGo, hcm2]
                exact ih hnd.2 hmem' k st href
        | none =>
            simp only [dbcGo, hcm2]
            exact ih hnd.2 hmem' k st href

/-- The names of the wrapped ancestor methods are a sublist of the ancestor
member names. -/
lemma parentWrapped_names (k : ClassT σ ν ρ) :
    ((parentWrapped k).map Prod.fst).Sublist (k.parentMembers.map Prod.fst) := by
  unfold parentWrapped
  induction k.parentMembers with
  | nil => simp
  | cons p rest ih =>
      rcases p with ⟨nm, m⟩
      cases m with
      | plain f =>
          simp only [List.filterMap_cons]
          exact ih.cons _
      | wrapped cw =>
          simp only [List.filterMap_cons]
          exact ih.cons₂ _

end DbcInheritLemmas

section DbcInheritTheorem

variable {σ ν ρ : Type}

/-- C4: inheritance propagation, case by case, for an ancestor method `nm`
that carries a wrapper `pcw`.  If the subclass overrides `nm` with a plain
method, a new wrapper is installed on the subclass whose condition lists are
deep, independent copies of the ancestor's (same predicates and tags, fresh
object ids, a fresh `olds` list object with the same contents) and whose
implementation pointer is rebound to the override body.  If the override
already carries its own wrapper, nothing is done and nothing is merged.  If
the subclass does not override `nm`, nothing is installed on it. -/
theorem c4_dbcinherit_cases (st : Store σ ν) (k : ClassT σ ν ρ) (nm : String)
    (pcw : Wrapper σ ν ρ)
    (hnd : (k.parentMembers.map Prod.fst).Nodup)
    (hmem : (nm, Meth.wrapped pcw) ∈ k.parentMembers)
    (href : pcw.oldsRef < st.oldsCells.length) :
    (∀ f, lookupN k.own nm = some (Meth.plain f) →
      ∃ cw', lookupN (dbcinherit st k).1.own nm = some (Meth.wrapped cw') ∧
        cw'.method = f ∧
        cw'.preconds.map stripId = pcw.preconds.map stripId ∧
        cw'.postconds.map stripId = pcw.postconds.map stripId ∧
        (∀ c ∈ cw'.preconds, st.next ≤ c.id) ∧
        (∀ c ∈ cw'.postconds, st.next ≤ c.id) ∧
        st.oldsCells.length ≤ cw'.oldsRef ∧
        (dbcinherit st k).2.oldsAt cw'.oldsRef = st.oldsAt pcw.oldsRef) ∧
    (∀ cw0, lookupN k.own nm = some (Meth.wrapped cw0) →
      lookupN (dbcinherit st k).1.own nm = some (Meth.wrapped cw0)) ∧
    (lookupN k.own nm = Option.none →
      lookupN (dbcinherit st k).1.own nm = Option.none) := by
  have hmemW : (nm, pcw) ∈ parentWrapped k := by
    unfold parentWrapped
    exact List.mem_filterMap.2 ⟨(nm, Meth.wrapped pcw), hmem, rfl⟩
  have hndW : ((parentWrapped k).map Prod.fst).Nodup := (parentWrapped_names k).nodup hnd
  refine ⟨?_, ?_, ?_⟩
  · intro f hf
    have hcm : lookupN (members k) nm = some (Meth.plain f) := by
      rw [show lookupN (members k) nm = mlookup k nm from rfl, mlookup_eq, hf]
    exact dbcGo_install (members k) hcm (parentWrapped k) hndW hmemW k st href
  · intro cw0 hf
    have hno : ∀ f', lookupN (members k) nm ≠ some (Meth.plain f') := by
      intro f' hcon
      rw [show lookupN (members k) nm = mlookup k nm from rfl, mlookup_eq, hf] at hcon
      simp at hcon
    rw [show (dbcinherit st k) = dbcGo (members k) (k, st) (parentWrapped k) from rfl]
    rw [dbcGo_skip (members k) hno (parentWrapped k) k st]
    exact hf
  · intro hf
    have hpar : lookupN k.parentMembers nm = some (Meth.wrapped pcw) :=
      lookupN_of_mem_nodup hnd hmem
    have hno : ∀ f', lookupN (members k) nm ≠ some (Meth.plain f') := by
      intro f' hcon
      rw [show lookupN (members k) nm = mlookup k nm from rfl, mlookup_eq, hf, hpar] at hcon
      simp at hcon
    rw [show (dbcinherit st k) = dbcGo (members k) (k, st) (parentWrapped k) from rfl]
    rw [dbcGo_skip (members k) hno (parentWrapped k) k st]
    exact hf

end DbcInheritTheorem

section InvariantLemmas

variable {σ ν ρ : Type} {α : Type}

lemma lookupN_mem {l : List (String × α)} {nm : String} {m : α}
    (h : lookupN l nm = some m) : (nm, m) ∈ l := by
  induction l with
  | nil => simp [lookupN] at h
  | cons p rest ih =>
      by_cases hp : p.1 = nm
      · simp only [lookupN, if_pos hp] at h
        rcases p with ⟨a, b⟩
        simp only at hp
        subst hp
        cases h
        exact List.mem_cons_self _ _
      · simp only [lookupN, if_neg hp] at h
        exact List.mem_cons_of_mem _ (ih h)

lemma mlookup_setattrC_self {k : ClassT σ ν ρ} {nm : String} {m : Meth σ ν ρ} :
    mlookup (setattrC k nm m) nm = some m := by
  rw [mlookup_eq]
  show (match lookupN (setattrOwn k.own nm m) nm with
    | some m => some m
    | Option.none => lookupN k.parentMembers nm) = some m
  rw [lookupN_setattr_self]

lemma mlookup_setattrC_ne {k : ClassT σ ν ρ} {nm nm' : String} {m : Meth σ ν ρ}
    (h : nm' ≠ nm) : mlookup (setattrC k nm' m) nm = mlookup k nm := by
  rw [mlookup_eq, mlookup_eq]
  show (match lookupN (setattrOwn k.own nm' m) nm with
    | some m => some m
    | Option.none => lookupN k.parentMembers nm) = _
  rw [lookupN_setattr_ne h]

lemma mlookup_update_ne {k : ClassT σ ν ρ} {nm nm' : String} {m : Meth σ ν ρ}
    (h : nm' ≠ nm) : mlookup (updateWhereFound k nm' m) nm = mlookup k nm := by
  unfold updateWhereFound
  cases hh : hasName k.own nm'
  · simp only [Bool.false_eq_true, if_false]
    rw [mlookup_eq, mlookup_eq]
    show (match lookupN k.own nm with
      | some m => some m
      | Option.none => lookupN (replaceIn k.parentMembers nm' m) nm) = _
    rw [lookupN_replace_ne h]
  · simp only [if_true]
    rw [mlookup_eq, mlookup_eq]
    show (match lookupN (replaceIn k.own nm' m) nm with
      | some m => some m
      | Option.none => lookupN k.parentMembers nm) = _
    rw [lookupN_replace_ne h]

lemma mlookup_update_self {k : ClassT σ ν ρ} {nm : String} {m m0 : Meth σ ν ρ}
    (h : mlookup k nm = some m0) : mlookup (updateWhereFound k nm m) nm = some m := by
  rw [mlookup_eq] at h
  unfold updateWhereFound
  cases hh : hasName k.own nm
  · have hown : lookupN k.own nm = Option.none := hasName_false_lookupN hh
    rw [hown] at h
    simp only [Bool.false_eq_true, if_false]
    rw [mlookup_eq]
    show (match lookupN k.own nm with
      | some m => some m
      | Option.none => lookupN (replaceIn k.parentMembers nm m) nm) = some m
    rw [hown, lookupN_replace_self h]
  · have hsome : ∃ m1, lookupN k.own nm = some m1 := by
      unfold hasName at hh
      cases hl : lookupN k.own nm with
      | some m1 => exact ⟨m1, rfl⟩
      | none => rw [hl] at hh; simp at hh
    rcases hsome with ⟨m1, hm1⟩
    simp only [if_true]
    rw [mlookup_eq]
    show (match lookupN (replaceIn k.own nm m) nm with
      | some m => some m
      | Option.none => lookupN k.parentMembers nm) = some m
    rw [lookupN_replace_self hm1]

lemma invariantWrapStep_mlookup_ne {st : Store σ ν} {k : ClassT σ ν ρ}
    {nm nm' : String} {m : Meth σ ν ρ} {conds : List (Condition σ ν)}
    (h : nm' ≠ nm) :
    mlookup (invariantWrapStep st k nm' m conds).1 nm = mlookup k nm := by
  cases m with
  | wrapped cw =>
      simp only [invariantWrapStep]
      exact mlookup_update_ne h
  | plain f =>
      by_cases hi : nm' = "__init__"
      · subst hi
        simp only [invariantWrapStep, if_pos rfl]
        exact mlookup_setattrC_ne h
      · simp only [invariantWrapStep, if_neg hi]
        exact mlookup_setattrC_ne h

lemma invGo_preserve (conds : List (Condition σ ν)) :
    ∀ (L : List (String × Meth σ ν ρ)) {nm : String}, nm ∉ L.map Prod.fst →
      ∀ (k : ClassT σ ν ρ) (st : Store σ ν),
        mlookup (invGo conds (k, st) L).1 nm = mlookup k nm := by
  intro L
  induction L with
  | nil => intro nm _ k st; rfl
  | cons e rest ih =>
      intro nm hnm k st
      rcases e with ⟨nm₂, m₂⟩
      simp only [List.map_cons, List.mem_cons, not_or] at hnm
      show mlookup (invGo conds (invariantWrapStep st k nm₂ m₂ conds) rest).1 nm = _
      rcases hstep : invariantWrapStep st k nm₂ m₂ conds with ⟨k', st'⟩
      rw [ih hnm.2 k' st']
      have hpres : mlookup (invariantWrapStep st k nm₂ m₂ conds).1 nm = mlookup k nm :=
        invariantWrapStep_mlookup_ne (fun he => hnm.1 he.symm)
      rw [hstep] at hpres
      exact hpres

lemma invGo_at (conds : List (Condition σ ν)) :
    ∀ (L : List (String × Meth σ ν ρ)) {nm : String} {m : Meth σ ν ρ},
      (L.map Prod.fst).Nodup → (nm, m) ∈ L →
      ∀ (k : ClassT σ ν ρ) (st : Store σ ν), mlookup k nm = some m →
        (∀ cw, m = Meth.wrapped cw → nm ≠ "__init__" →
          mlookup (invGo conds (k, st) L).1 nm =
            some (Meth.wrapped { cw with preconds := conds ++ cw.preconds,
                                         postconds := conds ++ cw.postconds })) ∧
        (∀ cw, m = Meth.wrapped cw → nm = "__init__" →
          mlookup (invGo conds (k, st) L).1 nm =
            some (Meth.wrapped { cw with postconds := conds ++ cw.postconds })) ∧
        (∀ f, m = Meth.plain f → nm ≠ "__init__" →
          ∃ n, mlookup (invGo conds (k, st) L).1 nm =
            some (Meth.wrapped ⟨n, f, conds, conds, 0, []⟩)) ∧
        (∀ f, m = Meth.plain f → nm = "__init__" →
          ∃ n, mlookup (invGo conds (k, st) L).1 nm =
            some (Meth.wrapped ⟨n, f, [], conds, 0, []⟩)) := by
  intro L
  induction L with
  | nil => intro nm m _ hmem; simp at hmem
  | cons e rest ih =>
      intro nm m hnd hmem k st hk
      rcases e with ⟨nm₂, m₂⟩
      simp only [List.map_cons, List.nodup_cons] at hnd
      rcases List.mem_cons.1 hmem with he | hmem'
      · obtain ⟨he1, he2⟩ := Prod.ext_iff.1 he
        simp only at he1 he2
        subst he1
        subst he2
        refine ⟨?_, ?_, ?_, ?_⟩
        · intro cw hm hi
          subst hm
          show mlookup (invGo conds (invariantWrapStep st k nm (Meth.wrapped cw) conds)
            rest).1 nm = _
          simp only [invariantWrapStep]
          rw [if_neg hi, invGo_preserve conds rest hnd.1]
          exact mlookup_update_self hk
        · intro cw hm hi
          subst hm
          show mlookup (invGo conds (invariantWrapStep st k nm (Meth.wrapped cw) conds)
            rest).1 nm = _
          simp only [invariantWrapStep]
          rw [if_pos hi, invGo_preserve conds rest hnd.1]
          exact mlookup_update_self hk
        · intro f hm hi
          subst hm
          refine ⟨st.next, ?_⟩
          show mlookup (invGo conds (invariantWrapStep st k nm (Meth.plain f) conds)
            rest).1 nm = _
          simp only [invariantWrapStep]
          rw [if_neg hi, invGo_preserve conds rest hnd.1]
          exact mlookup_setattrC_self
        · intro f hm hi
          subst hm
          refine ⟨st.next, ?_⟩
          show mlookup (invGo conds (invariantWrapStep st k nm (Meth.plain f) conds)
            rest).1 nm = _
          simp only [invariantWrapStep]
          rw [if_pos hi, invGo_preserve conds rest hnd.1]
          exact mlookup_setattrC_self
      · have hne : nm₂ ≠ nm := by
          intro he
          exact hnd.1 (he ▸ (List.mem_map.2 ⟨(nm, m), hmem', rfl⟩))
        have hk' : mlookup (invariantWrapStep st k nm₂ m₂ conds).1 nm = some m := by
          rw [invariantWrapStep_mlookup_ne hne]
          exact hk
        exact ih hnd.2 hmem' (invariantWrapStep st k nm₂ m₂ conds).1
          (invariantWrapStep st k nm₂ m₂ conds).2 hk'

end InvariantLemmas

section AttachmentTheorems

variable {σ ν ρ : Type}

/-- C5 (amended): attaching invariants wraps every method visible on the
class — its own methods and the inherited ones it does not shadow, not only
the methods defined directly on it — enumerated once at attachment time.
Each invariant condition is placed in both the precondition and the
postcondition list of the method's wrapper, except for `__init__`, which
receives them only in its postcondition list; on a method that already
carries conditions the invariant conditions are prepended before them. -/
theorem c5_invariant_attachment (st : Store σ ν) (iconds : List (Pred σ ν))
    (k : ClassT σ ν ρ) (nm : String) (m : Meth σ ν ρ)
    (hnd : ((members k).map Prod.fst).Nodup) (hm : mlookup k nm = some m) :
    (∀ cw, m = Meth.wrapped cw → nm ≠ "__init__" →
      mlookup (invariantAttach st iconds k).1 nm =
        some (Meth.wrapped { cw with
          preconds := allocCondsL st.next true iconds ++ cw.preconds,
          postconds := allocCondsL st.next true iconds ++ cw.postconds })) ∧
    (∀ cw, m = Meth.wrapped cw → nm = "__init__" →
      mlookup (invariantAttach st iconds k).1 nm =
        some (Meth.wrapped { cw with
          postconds := allocCondsL st.next true iconds ++ cw.postconds })) ∧
    (∀ f, m = Meth.plain f → nm ≠ "__init__" →
      ∃ n, mlookup (invariantAttach st iconds k).1 nm =
        some (Meth.wrapped ⟨n, f, allocCondsL st.next true iconds,
          allocCondsL st.next true iconds, 0, []⟩)) ∧
    (∀ f, m = Meth.plain f → nm = "__init__" →
      ∃ n, mlookup (invariantAttach st iconds k).1 nm =
        some (Meth.wrapped ⟨n, f, [], allocCondsL st.next true iconds, 0, []⟩)) := by
  have hmem : (nm, m) ∈ members k := lookupN_mem hm
  exact invGo_at (allocCondsL st.next true iconds) (members k) hnd hmem k
    { st with next := st.next + iconds.length } hm

/-- C7 (corrected): the `_Condition` objects built by one `invariant(...)`
application are installed shared — two plain methods of the class end up with
the very same condition list (same objects, same ids) in their wrappers, so
conditions ARE shared across wrappers; inheritance propagation, by contrast,
installs fresh copies whose ids are disjoint from the ancestor wrapper's. -/
theorem c7_condition_sharing :
    (∀ (st : Store σ ν) (iconds : List (Pred σ ν)) (k : ClassT σ ν ρ)
      (nm₁ nm₂ : String) (f₁ f₂ : Impl σ ν ρ),
      ((members k).map Prod.fst).Nodup →
      mlookup k nm₁ = some (Meth.plain f₁) →
      mlookup k nm₂ = some (Meth.plain f₂) →
      nm₁ ≠ "__init__" → nm₂ ≠ "__init__" →
      ∃ n₁ n₂,
        mlookup (invariantAttach st iconds k).1 nm₁ =
          some (Meth.wrapped ⟨n₁, f₁, allocCondsL st.next true iconds,
            allocCondsL st.next true iconds, 0, []⟩) ∧
        mlookup (invariantAttach st iconds k).1 nm₂ =
          some (Meth.wrapped ⟨n₂, f₂, allocCondsL st.next true iconds,
            allocCondsL st.next true iconds, 0, []⟩)) ∧
    (∀ (st : Store σ ν) (k : ClassT σ ν ρ) (nm : String) (pcw : Wrapper σ ν ρ)
      (f : Impl σ ν ρ),
      (k.parentMembers.map Prod.fst).Nodup →
      (nm, Meth.wrapped pcw) ∈ k.parentMembers →
      pcw.oldsRef < st.oldsCells.length →
      lookupN k.own nm = some (Meth.plain f) →
      (∀ c ∈ pcw.preconds, c.id < st.next) →
      (∀ c ∈ pcw.postconds, c.id < st.next) →
      ∃ cw', lookupN (dbcinherit st k).1.own nm = some (Meth.wrapped cw') ∧
        (∀ c' ∈ cw'.preconds, ∀ c ∈ pcw.preconds ++ pcw.postconds, c'.id ≠ c.id) ∧
        (∀ c' ∈ cw'.postconds, ∀ c ∈ pcw.preconds ++ pcw.postconds, c'.id ≠ c.id)) := by
  constructor
  · intro st iconds k nm₁ nm₂ f₁ f₂ hnd hm1 hm2 hi1 hi2
    rcases (invGo_at (allocCondsL st.next true iconds) (members k) hnd (lookupN_mem hm1) k
        { st with next := st.next + iconds.length } hm1).2.2.1 f₁ rfl hi1 with ⟨n₁, h1⟩
    rcases (invGo_at (allocCondsL st.next true iconds) (members k) hnd (lookupN_mem hm2) k
        { st with next := st.next + iconds.length } hm2).2.2.1 f₂ rfl hi2 with ⟨n₂, h2⟩
    exact ⟨n₁, n₂, h1, h2⟩
  · intro st k nm pcw f hnd hmem href hf hb1 hb2
    have hmemW : (nm, pcw) ∈ parentWrapped k := by
      unfold parentWrapped
      exact List.mem_filterMap.2 ⟨(nm, Meth.wrapped pcw), hmem, rfl⟩
    have hndW : ((parentWrapped k).map Prod.fst).Nodup := (parentWrapped_names k).nodup hnd
    have hcm : lookupN (members k) nm = some (Meth.plain f) := by
      rw [show lookupN (members k) nm = mlookup k nm from rfl, mlookup_eq, hf]
    rcases dbcGo_install (members k) hcm (parentWrapped k) hndW hmemW k st href with
      ⟨cw', hlk, _, _, _, hi1, hi2, _, _⟩
    refine ⟨cw', hlk, ?_, ?_⟩
    · intro c' hc' c hc
      have h1 : st.next ≤ c'.id := hi1 c' hc'
      have h2 : c.id < st.next := by
        rcases List.mem_append.1 hc with hc | hc
        · exact hb1 c hc
        · exact hb2 c hc
      omega
    · intro c' hc' c hc
      have h1 : st.next ≤ c'.id := hi2 c' hc'
      have h2 : c.id < st.next := by
        rcases List.mem_append.1 hc with hc | hc
        · exact hb1 c hc
        · exact hb2 c hc
      omega

/-- C8: a method carries at most one wrapper and repeated attachment calls
mutate that same wrapper object — `requires`/`ensures` on a wrapped method
extend its lists in place (the record keeps the same `wid`, i.e. the same
object), `old` on a wrapped method touches only the `olds` heap cell, and an
attachment on a plain method creates exactly one wrapper; there is never a
wrapper wrapping another wrapper. -/
theorem c8_single_wrapper (st : Store σ ν) (ps : List (Pred σ ν))
    (oldfun : σ → Snap ν) (cw : Wrapper σ ν ρ) (f : Impl σ ν ρ) :
    (requiresAttach st ps (Meth.wrapped cw)).1 =
      Meth.wrapped { cw with preconds := cw.preconds ++ allocCondsL st.next false ps } ∧
    (ensuresAttach st ps (Meth.wrapped cw)).1 =
      Meth.wrapped { cw with postconds := cw.postconds ++ allocCondsL st.next false ps } ∧
    (oldAttach st oldfun (Meth.wrapped cw)).1 = Meth.wrapped cw ∧
    (∃ cw', (requiresAttach st ps (Meth.plain f)).1 = Meth.wrapped cw' ∧
      cw'.wid = st.next + ps.length ∧ cw'.method = f) ∧
    (∃ cw', (ensuresAttach st ps (Meth.plain f)).1 = Meth.wrapped cw' ∧
      cw'.wid = st.next + ps.length ∧ cw'.method = f) ∧
    (∃ cw', (oldAttach st oldfun (Meth.plain f)).1 = Meth.wrapped cw' ∧
      cw'.wid = st.next ∧ cw'.method = f) :=
  ⟨rfl, rfl, rfl, ⟨_, rfl, rfl, rfl⟩, ⟨_, rfl, rfl, rfl⟩, ⟨_, rfl, rfl, rfl⟩⟩

end AttachmentTheorems

section ConcreteExamples

/-- Extract the `cw` attribute of a wrapped method (default for plain ones). -/
def Meth.getCw (dflt : Wrapper σ ν ρ) : Meth σ ν ρ → Wrapper σ ν ρ
  | Meth.wrapped cw => cw
  | Meth.plain _ => dflt

/-- Precondition/postcondition lists of a method slot, as condition ids. -/
def slotCondIds : Option (Meth σ ν ρ) → Option (List Nat × List Nat)
  | some (Meth.wrapped cw) =>
      some (cw.preconds.map Condition.id, cw.postconds.map Condition.id)
  | _ => Option.none

/-- A predicate that always passes. -/
def exPred : Pred Nat Nat := Pred.unary (fun _ => PyVal.bool true)

/-- An implementation that leaves the receiver alone and returns `0`. -/
def exImpl : Impl Nat Nat Nat := fun s fld => (s, fld, 0)

/-- Dummy wrapper used as the default of `Meth.getCw`. -/
def exWrapper : Wrapper Nat Nat Nat := ⟨999, exImpl, [], [], 0, []⟩

/-- `@old(lambda self: dict(x = self.x))` applied to a bare method. -/
def c1m1 : Meth Nat Nat Nat × Store Nat Nat :=
  oldAttach initStore (fun s => [("x", s)]) (Meth.plain exImpl)

/-- `@requires(lambda self, old: old != dict())` stacked above the `@old`. -/
def c1m2 : Meth Nat Nat Nat × Store Nat Nat :=
  requiresAttach c1m1.2 [Pred.binary (fun _ old => PyVal.bool (decide (old ≠ [])))] c1m1.1

def c1cw : Wrapper Nat Nat Nat := Meth.getCw exWrapper c1m2.1

/-- Capture `x`, then mutate it, then compare `old['x']` with the new value. -/
def c2m1 : Meth Nat Nat Nat × Store Nat Nat :=
  oldAttach initStore (fun s => [("x", s)])
    (Meth.plain (fun s fld => (s + 1, fld, s * 10)))

def c2m2 : Meth Nat Nat Nat × Store Nat Nat :=
  ensuresAttach c2m1.2
    [Pred.binary (fun s old => PyVal.bool (decide (lookupN old "x" = some (s - 1))))] c2m1.1

def c2cw : Wrapper Nat Nat Nat := Meth.getCw exWrapper c2m2.1

/-- Two successive `requires` attachments on one method. -/
def c3m1 : Meth Nat Nat Nat × Store Nat Nat :=
  requiresAttach initStore [exPred] (Meth.plain exImpl)

def c3m2 : Meth Nat Nat Nat × Store Nat Nat := requiresAttach c3m1.2 [exPred] c3m1.1

def c3cw : Wrapper Nat Nat Nat := Meth.getCw exWrapper c3m2.1

end ConcreteExamples

section CounterexamplesA

/-- C1 counterexample: the method carries an old-capture returning
`dict(x = self.x)` and one two-parameter precondition that passes exactly
when its `old` argument is a nonempty dict.  On the call the snapshot built
in the capture step is `[("x", 7)]` and the predicate holds on it, so by the
claim the call should succeed; instead it raises
`PreconditionFailedException`, because the precondition phase hands the
predicate the default empty dict rather than the snapshot. -/
theorem c1_counterexample :
    (callWrapper c1m2.2 c1cw 7).outcome = Outcome.preconditionFailedException ∧
    buildSnapshot c1m2.2 c1cw 7 = [("x", 7)] ∧
    c1cw.preconds.map (fun c => pyNeTrue (c.call 7 [("x", 7)])) = [false] ∧
    c1cw.preconds.map (fun c => pyNeTrue (c.call 7 [])) = [true] := by
  refine ⟨by decide, by decide, by decide, by decide⟩

/-- Witness for C1's amended theorem at the concrete wrapper of
`c1_counterexample`. -/
theorem c1_preconds_get_empty_old_witness :
    Ev.evalPre 1 [] (PyVal.bool false) ∈ (callWrapper c1m2.2 c1cw 7).trace ∧
    (([] : Snap Nat) = [] ∧
      ∃ c ∈ c1cw.preconds, 1 = c.id ∧ PyVal.bool false = c.call 7 []) :=
  ⟨by decide, c1_preconds_get_empty_old c1m2.2 c1cw 7 1 [] (PyVal.bool false) (by decide)⟩

/-- Witness for C2 at a wrapper whose implementation mutates the captured
attribute: the snapshot handed to the postcondition keeps the pre-call value
`5` although the implementation sets the receiver to `6`, and the call
returns the implementation's result `50`. -/
theorem c2_call_protocol_witness :
    [("x", 5)] = buildSnapshot c2m2.2 c2cw 5 ∧
    (callWrapper c2m2.2 c2cw 5).outcome = Outcome.ok 50 ∧
    (callWrapper c2m2.2 c2cw 5).state = 6 :=
  ⟨(c2_call_protocol c2m2.2 c2cw 5).2.1 1 [("x", 5)] (PyVal.bool true) (by decide),
   by decide, by decide⟩

/-- C3 counterexample: two `requires` attachments, the first contributing
condition `0` and the second condition `2`.  The precondition event adjacent
to `runImpl` is condition `2`'s — the LAST attachment's condition runs
closest to the implementation call — while the claim says the chronologically
first attachment's conditions are evaluated closest to it. -/
theorem c3_counterexample :
    c3cw.preconds.map Condition.id = [0, 2] ∧
    (allocCondsL 0 false [exPred]).map Condition.id = [0] ∧
    (callWrapper c3m2.2 c3cw 0).trace =
      [Ev.evalPre 0 [] (PyVal.bool true), Ev.evalPre 2 [] (PyVal.bool true), Ev.runImpl] ∧
    (callWrapper c3m2.2 c3cw 0).trace.get? 1 = some (Ev.evalPre 2 [] (PyVal.bool true)) ∧
    (callWrapper c3m2.2 c3cw 0).trace.get? 2 = some Ev.runImpl := by
  refine ⟨by decide, by decide, by decide, by decide, by decide⟩

/-- Witness for C3's amended theorem on four singleton attachments. -/
theorem c3_attachment_order_witness :
    ∃ cw : Wrapper Nat Nat Nat,
      (attachChain [exPred] [exPred] [exPred] [exPred] exImpl).1 = Meth.wrapped cw ∧
      cw.preconds =
        allocCondsL 0 false [exPred] ++
          allocCondsL ([exPred].length + 1) false [exPred] ∧
      cw.postconds =
        allocCondsL ([exPred].length + 1 + [exPred].length) false [exPred] ++
          allocCondsL ([exPred].length + 1 + [exPred].length + [exPred].length) false
            [exPred] ∧
      (callWrapper (attachChain [exPred] [exPred] [exPred] [exPred] exImpl).2 cw 0).trace =
        ((allocCondsL 0 false [exPred]).map (fun c => Ev.evalPre c.id [] (c.call 0 [])) ++
         (allocCondsL ([exPred].length + 1) false [exPred]).map
           (fun c => Ev.evalPre c.id [] (c.call 0 []))) ++
        Ev.runImpl ::
          ((allocCondsL ([exPred].length + 1 + [exPred].length) false [exPred]).map
            (fun c => Ev.evalPost c.id [] (c.call (exImpl 0 []).1 [])) ++
           (allocCondsL ([exPred].length + 1 + [exPred].length + [exPred].length) false
              [exPred]).map
            (fun c => Ev.evalPost c.id [] (c.call (exImpl 0 []).1 []))) :=
  c3_attachment_order [exPred] [exPred] [exPred] [exPred] exImpl 0 (by decide) (by decide)

end CounterexamplesA

section CounterexamplesB

/-- Ancestor wrapper for the inheritance examples. -/
def c4pcw : Wrapper Nat Nat Nat := ⟨0, exImpl, [⟨0, exPred, false⟩], [⟨1, exPred, false⟩], 0, []⟩

/-- The subclass's own override body. -/
def c4f2 : Impl Nat Nat Nat := fun s fld => (s + 5, fld, 1)

/-- A subclass that overrides `append` (plainly) and inherits `size`. -/
def c4k : ClassT Nat Nat Nat :=
  ⟨[("append", Meth.plain c4f2)],
   [("append", Meth.wrapped c4pcw), ("size", Meth.plain exImpl)]⟩

def c4st : Store Nat Nat := ⟨2, [[]]⟩

/-- Witness for C4 on a concrete subclass: the plain override of `append`
gets a fresh wrapper, a copy of the ancestor's lists rebound to the override
body. -/
theorem c4_dbcinherit_cases_witness :
    ∃ cw', lookupN (dbcinherit c4st c4k).1.own "append" = some (Meth.wrapped cw') ∧
      cw'.method = c4f2 ∧
      cw'.preconds.map stripId = c4pcw.preconds.map stripId ∧
      cw'.postconds.map stripId = c4pcw.postconds.map stripId ∧
      (∀ c ∈ cw'.preconds, c4st.next ≤ c.id) ∧
      (∀ c ∈ cw'.postconds, c4st.next ≤ c.id) ∧
      c4st.oldsCells.length ≤ cw'.oldsRef ∧
      (dbcinherit c4st c4k).2.oldsAt cw'.oldsRef = c4st.oldsAt c4pcw.oldsRef :=
  (c4_dbcinherit_cases c4st c4k "append" c4pcw (by decide) (List.mem_cons_self _ _)
    (by decide)).1 c4f2 rfl

/-- A class that only inherits `m`; it defines nothing of its own. -/
def c5k : ClassT Nat Nat Nat := ⟨[], [("m", Meth.plain exImpl)]⟩

def c5r : ClassT Nat Nat Nat × Store Nat Nat := invariantAttach initStore [exPred] c5k

/-- C5 counterexample: `m` is not defined directly on the class (its own
attribute table has no entry for it), yet invariant attachment wraps it —
afterwards the class carries an own slot for `m` whose wrapper holds the
invariant condition in both lists.  The claim's "every method currently
defined directly on the class" is too narrow: the code enumerates all
visible methods, inherited ones included. -/
theorem c5_counterexample :
    lookupN c5k.own "m" = Option.none ∧
    slotCondIds (lookupN c5r.1.own "m") = some ([0], [0]) := by
  refine ⟨rfl, by decide⟩

/-- A class with one own plain method, for the C5 witness. -/
def c5k2 : ClassT Nat Nat Nat := ⟨[("doit", Meth.plain exImpl)], []⟩

/-- Witness for C5's amended theorem. -/
theorem c5_invariant_attachment_witness :
    ∃ n, mlookup (invariantAttach (initStore : Store Nat Nat) [exPred] c5k2).1 "doit" =
      some (Meth.wrapped ⟨n, exImpl, allocCondsL 0 true [exPred],
        allocCondsL 0 true [exPred], 0, []⟩) :=
  (c5_invariant_attachment initStore [exPred] c5k2 "doit" (Meth.plain exImpl)
    (by decide) rfl).2.2.1 exImpl rfl (by decide)

/-- One precondition whose predicate returns the integer `1`. -/
def c6m1 : Meth Nat Nat Nat × Store Nat Nat :=
  requiresAttach initStore [Pred.unary (fun _ => PyVal.int 1)] (Meth.plain exImpl)

def c6cw1 : Wrapper Nat Nat Nat := Meth.getCw exWrapper c6m1.1

/-- C6 counterexample: the predicate's result `1` is not exactly the boolean
true value, so by the claim the call should stop and raise
`PreconditionFailedException` without invoking the implementation; the code
instead accepts it (`1 != True` is false in Python), runs the implementation
and returns its result. -/
theorem c6_counterexample :
    (callWrapper c6m1.2 c6cw1 3).outcome = Outcome.ok 0 ∧
    Ev.runImpl ∈ (callWrapper c6m1.2 c6cw1 3).trace ∧
    PyVal.int 1 ≠ PyVal.bool true := by
  refine ⟨by decide, by decide, by decide⟩

/-- Three preconditions: pass, fail, pass. -/
def c6m2 : Meth Nat Nat Nat × Store Nat Nat :=
  requiresAttach initStore
    [Pred.unary (fun _ => PyVal.bool true), Pred.unary (fun _ => PyVal.bool false), exPred]
    (Meth.plain exImpl)

def c6cw2 : Wrapper Nat Nat Nat := Meth.getCw exWrapper c6m2.1

/-- Witness for C6's amended theorem: the second precondition fails, the
third is never evaluated, and the implementation never runs. -/
theorem c6_fail_fast_witness :
    (callWrapper c6m2.2 c6cw2 3).outcome = Outcome.preconditionFailedException ∧
    (callWrapper c6m2.2 c6cw2 3).trace =
      [Ev.evalPre 0 [] (PyVal.bool true), Ev.evalPre 1 [] (PyVal.bool false)] ∧
    Ev.runImpl ∉ (callWrapper c6m2.2 c6cw2 3).trace := by
  have h := (c6_fail_fast c6m2.2 c6cw2 3).1
    [⟨0, Pred.unary (fun _ => PyVal.bool true), false⟩]
    ⟨1, Pred.unary (fun _ => PyVal.bool false), false⟩
    [⟨2, exPred, false⟩] rfl (by decide) (by decide)
  exact ⟨h.1, by rw [h.2.1]; rfl, h.2.2⟩

/-- A class with two own plain methods. -/
def c7k : ClassT Nat Nat Nat := ⟨[("f", Meth.plain exImpl), ("g", Meth.plain exImpl)], []⟩

def c7r : ClassT Nat Nat Nat × Store Nat Nat := invariantAttach initStore [exPred] c7k

/-- C7 counterexample: after one invariant attachment, method `f`'s wrapper
and method `g`'s wrapper hold the condition with the SAME object id `0` in
their lists — one `_Condition` object shared across the wrappers of two
different methods, not distinct independent objects. -/
theorem c7_counterexample :
    slotCondIds (mlookup c7r.1 "f") = some ([0], [0]) ∧
    slotCondIds (mlookup c7r.1 "g") = some ([0], [0]) := by
  refine ⟨by decide, by decide⟩

/-- Witness for C7's amended theorem. -/
theorem c7_condition_sharing_witness :
    ∃ n₁ n₂,
      mlookup (invariantAttach (initStore : Store Nat Nat) [exPred] c7k).1 "f" =
        some (Meth.wrapped ⟨n₁, exImpl, allocCondsL 0 true [exPred],
          allocCondsL 0 true [exPred], 0, []⟩) ∧
      mlookup (invariantAttach (initStore : Store Nat Nat) [exPred] c7k).1 "g" =
        some (Meth.wrapped ⟨n₂, exImpl, allocCondsL 0 true [exPred],
          allocCondsL 0 true [exPred], 0, []⟩) :=
  c7_condition_sharing.1 initStore [exPred] c7k "f" "g" exImpl exImpl (by decide) rfl rfl
    (by decide) (by decide)

/-- Two methods decorated with `requires`/`ensures` only. -/
def c9m1 : Meth Nat Nat Nat × Store Nat Nat :=
  requiresAttach initStore [exPred] (Meth.plain exImpl)

def c9m2 : Meth Nat Nat Nat × Store Nat Nat := ensuresAttach c9m1.2 [exPred] (Meth.plain exImpl)

/-- `old` attached to the FIRST method only. -/
def c9r : Meth Nat Nat Nat × Store Nat Nat :=
  oldAttach c9m2.2 (fun s => [("x", s)]) c9m1.1

/-- C9 (code bug): both wrappers were created without an `olds` argument, so
both reference the shared default list object (cell `0`).  Attaching an old
capture to the first method appends to that shared object, so the SECOND
method's `olds` list — empty before — now holds the capture function, and
the second method's calls build the snapshot `[("x", 7)]` instead of the
empty one.  `__init__` copies `pre_conditions` and `post_conditions` with
`list(...)` but stores `olds` by reference: the classic mutable default
argument slip. -/
theorem c9_shared_default_olds :
    (Meth.getCw exWrapper c9m1.1).oldsRef = 0 ∧
    (Meth.getCw exWrapper c9m2.1).oldsRef = 0 ∧
    (c9m2.2.oldsAt 0).length = 0 ∧
    (c9r.2.oldsAt 0).length = 1 ∧
    buildSnapshot c9r.2 (Meth.getCw exWrapper c9m2.1) 7 = [("x", 7)] ∧
    buildSnapshot c9m2.2 (Meth.getCw exWrapper c9m2.1) 7 = [] := by
  refine ⟨by decide, by decide, by decide, by decide, by decide, by decide⟩

end CounterexamplesB


end PyADBC
